import Mathlib

/-!
Verification of the yadage-engine-api orchestration engine (src/yadageengine)
against its natural-language specification.

The development shallowly embeds the Python sources:

* `engine.py`    — the `YADAGEEngine` class (status derivation, reconciliation,
  rule application, node submission, listing, creation, deletion);
* `task.py`      — the `MongoDBTaskManager` ledger of `(workflow, node)` pairs;
* `repository.py` — the `MongoDBWorkflowRepository` record store.

Modelling conventions:

* The external adage/yadage graph engine is opaque; its narrow interface
  (`dag.nodes()`, `dag.getNode(id)`, node `state`/`submit_time`,
  `dagstate.upstream_ok`, `Rule.applicable`, `Rule.apply`) is embedded with
  explicit data.  A node's state is one of the four adage node states
  DEFINED / RUNNING / SUCCESS / FAILED referenced by the source.
* MongoDB-backed stores become lists carried in an explicit `EngineState`;
  each repository insert/replace increments a `writes` counter so that
  "no repository write happened" is expressible.
* Python exceptions become `Except`; the error value carries the state the
  store had reached when the exception was raised (MongoDB side effects that
  already happened persist past the exception).
* `json()` / `fromJSON` round-trips inside the engine are modelled as the
  identity: a record stores the workflow value itself.
-/

namespace YadageEngine

/-- Node states of the external adage `nodestate` module, exactly the four
constants referenced by `engine.py` (`DEFINED`, `RUNNING`, `SUCCESS`,
`FAILED`). -/
inductive NodeState where
  | DEFINED
  | RUNNING
  | SUCCESS
  | FAILED
deriving DecidableEq, Repr

/-- Workflow states `WORKFLOW_RUNNING`, `WORKFLOW_WAITING`, `WORKFLOW_FAILED`,
`WORKFLOW_SUCCESS` imported by `engine.py` from the `workflow` module. -/
inductive WorkflowState where
  | RUNNING
  | WAITING
  | FAILED
  | SUCCESS
deriving DecidableEq, Repr

/-- A node of the workflow DAG, as seen through the narrow interface used by
`engine.py`: an identifier, an adage node state, the `submit_time` mark
(modelled as the boolean "has been set"), and the identifiers of its upstream
dependencies (used by `dagstate.upstream_ok`). -/
structure Node where
  identifier : String
  state : NodeState
  submit_time : Bool
  deps : List String
deriving DecidableEq, Repr

/-- A pending rule, as seen through the narrow interface of the external
graph engine: `identifier`, the opaque `applicable(workflow)` predicate
(a function of the current DAG), and the effect of `apply(workflow)`, which
per the specification mutates the graph — modelled as the nodes the rule
appends to the DAG. -/
structure Rule where
  identifier : String
  applicable : List Node → Bool
  newNodes : List Node

/-- The in-memory `YadageWorkflow` object: the DAG (in `dag.nodes()` order),
the pending rules and the applied-rules log. -/
structure YadageWorkflow where
  dag : List Node
  rules : List Rule
  applied_rules : List Rule

/-- Membership lookup `dag.getNode(node_id)`: first node with the given
identifier, `none` if absent. -/
def getNode (dag : List Node) (node_id : String) : Option Node :=
  dag.find? (fun n => n.identifier = node_id)

/-- External `dagstate.upstream_ok`: every upstream dependency of the node
exists and is in the terminal-success state. -/
def upstream_ok (dag : List Node) (node : Node) : Bool :=
  node.deps.all (fun d =>
    match getNode dag d with
    | some m => m.state = NodeState.SUCCESS
    | none => false)

/-- Loop body of `YADAGEEngine.get_workflow_state` (engine.py lines 319-328):
fold over the DAG nodes carrying the running state; a FAILED node sets the
state to FAILED and breaks; a RUNNING node sets RUNNING; a DEFINED node sets
WAITING unless the state is already FAILED or RUNNING. -/
def stateLoop : WorkflowState → List NodeState → WorkflowState
  | s, [] => s
  | s, n :: ns =>
    if n = NodeState.FAILED then WorkflowState.FAILED
    else
      let s1 := if n = NodeState.RUNNING then WorkflowState.RUNNING else s
      let s2 :=
        if n = NodeState.DEFINED ∧ s1 ≠ WorkflowState.FAILED ∧ s1 ≠ WorkflowState.RUNNING
        then WorkflowState.WAITING else s1
      stateLoop s2 ns

/-- Embedding of `YADAGEEngine.get_workflow_state` (engine.py lines 299-329):
the initial state is WAITING when pending rules exist and SUCCESS otherwise,
then the node loop runs over the DAG. -/
def get_workflow_state (wf : YadageWorkflow) : WorkflowState :=
  stateLoop
    (if wf.rules.length > 0 then WorkflowState.WAITING else WorkflowState.SUCCESS)
    (wf.dag.map Node.state)

/-- A workflow record as stored by the repository (`WorkflowDBInstance` in
the revision of `workflow.py` that `engine.py` and `repository.py` target):
identifier, user-provided name, last derived workflow state, and the
serialized graph snapshot (`workflow_json`, modelled as the workflow value
itself since `json()`/`fromJSON` round-trip inside the engine). -/
structure WorkflowDBInstance where
  identifier : String
  name : String
  state : WorkflowState
  workflow_json : YadageWorkflow

/-- The durable state threaded through the engine: the repository records
(MongoDB collection of `repository.py`), the task ledger of
`(workflow, node)` pairs (collection of `task.py`), the log of nodes handed
to the execution backend by `adage.submit_node`, the set of work directories
created with `os.makedirs`, and a counter of repository write operations
(inserts and replacements), used to express "no repository write happened". -/
structure EngineState where
  repo : List WorkflowDBInstance
  ledger : List (String × String)
  dispatched : List (String × String)
  dirs : List String
  writes : Nat

/-! ### Task ledger (`task.py`, `MongoDBTaskManager`) -/

/-- Embedding of `MongoDBTaskManager.create_task`: insert one
`{workflow, node}` document (duplicates tolerated). -/
def create_task (st : EngineState) (workflow_id node_id : String) : EngineState :=
  { st with ledger := st.ledger ++ [(workflow_id, node_id)] }

/-- Embedding of `MongoDBTaskManager.delete_task`: delete every document
matching the `(workflow, node)` pair. -/
def delete_task (st : EngineState) (workflow_id node_id : String) : EngineState :=
  { st with ledger := st.ledger.filter (fun p => ¬(p.1 = workflow_id ∧ p.2 = node_id)) }

/-- Embedding of `MongoDBTaskManager.delete_tasks`: delete every document of
the given workflow. -/
def delete_tasks (st : EngineState) (workflow_id : String) : EngineState :=
  { st with ledger := st.ledger.filter (fun p => ¬ p.1 = workflow_id) }

/-- Embedding of `MongoDBTaskManager.has_tasks`. -/
def has_tasks (st : EngineState) (workflow_id : String) : Bool :=
  st.ledger.any (fun p => p.1 = workflow_id)

/-- Embedding of `MongoDBTaskManager.list_tasks`: node identifiers of the
workflow's ledger documents, in collection order. -/
def list_tasks (st : EngineState) (workflow_id : String) : List String :=
  (st.ledger.filter (fun p => p.1 = workflow_id)).map Prod.snd

/-- Embedding of `MongoDBTaskManager.list_workflows`: the ledger's
distinct-workflow index. -/
def tm_list_workflows (st : EngineState) : List String :=
  (st.ledger.map Prod.fst).dedup

/-! ### Workflow repository (`repository.py`, `MongoDBWorkflowRepository`) -/

/-- Embedding of `MongoDBWorkflowRepository.create_workflow`: `insert_one`
raises `DuplicateKeyError` on an `_id` collision, otherwise the document is
inserted and the new instance returned. -/
def db_create_workflow (st : EngineState) (workflow_id name : String)
    (state : WorkflowState) (workflow_json : YadageWorkflow) :
    Except EngineState (WorkflowDBInstance × EngineState) :=
  if st.repo.any (fun r => r.identifier = workflow_id) then .error st
  else
    let inst : WorkflowDBInstance := ⟨workflow_id, name, state, workflow_json⟩
    .ok (inst, { st with repo := st.repo ++ [inst], writes := st.writes + 1 })

/-- Embedding of `MongoDBWorkflowRepository.get_workflow`: the first document
matching the identifier, if any. -/
def db_get_workflow (st : EngineState) (workflow_id : String) : Option WorkflowDBInstance :=
  st.repo.find? (fun r => r.identifier = workflow_id)

/-- Embedding of `MongoDBWorkflowRepository.list_workflows` without a state
filter (the only form the engine calls): all records. -/
def db_list_workflows (st : EngineState) : List WorkflowDBInstance :=
  st.repo

/-- Replacement of the first record matching the identifier, as performed by
MongoDB `replace_one`. -/
def replace_record : List WorkflowDBInstance → String → WorkflowDBInstance →
    List WorkflowDBInstance
  | [], _, _ => []
  | r :: rs, workflow_id, inst =>
    if r.identifier = workflow_id then inst :: rs
    else r :: replace_record rs workflow_id inst

/-- Embedding of `MongoDBWorkflowRepository.update_workflow`: `replace_one`
on the identifier; returns the updated instance when a document matched and
`none` otherwise. -/
def db_update_workflow (st : EngineState) (workflow_id name : String)
    (state : WorkflowState) (workflow_json : YadageWorkflow) :
    Option WorkflowDBInstance × EngineState :=
  let inst : WorkflowDBInstance := ⟨workflow_id, name, state, workflow_json⟩
  if st.repo.any (fun r => r.identifier = workflow_id) then
    (some inst,
      { st with repo := replace_record st.repo workflow_id inst, writes := st.writes + 1 })
  else (none, { st with writes := st.writes + 1 })

/-! ### Orchestration engine (`engine.py`, `YADAGEEngine`) -/

/-- Embedding of `YADAGEEngine.get_workflow_objects`: read the record and
rebuild the in-memory workflow from its snapshot (`YadageWorkflow.fromJSON`,
the identity in this model). -/
def get_workflow_objects (st : EngineState) (workflow_id : String) :
    Option (YadageWorkflow × WorkflowDBInstance) :=
  match db_get_workflow st workflow_id with
  | some workflow_inst => some (workflow_inst.workflow_json, workflow_inst)
  | none => none

/-- Loop of `YADAGEEngine.update_workflow_state` (engine.py lines 454-463)
over the pre-computed task list: a task whose node is terminal
(SUCCESS/FAILED) is deleted from the ledger and marks a change; a task whose
node no longer exists hits `db.task_manager.delete_task` at line 463, where
the global name `db` is undefined, so the call raises `NameError` — modelled
as an error carrying the state reached so far. -/
def reconcile_tasks (dag : List Node) (workflow_id : String) :
    List String → EngineState → Bool → Except EngineState (EngineState × Bool)
  | [], st, has_changes => .ok (st, has_changes)
  | task_id :: rest, st, has_changes =>
    match getNode dag task_id with
    | some node =>
      if node.state = NodeState.SUCCESS ∨ node.state = NodeState.FAILED then
        reconcile_tasks dag workflow_id rest (delete_task st workflow_id task_id) true
      else
        reconcile_tasks dag workflow_id rest st has_changes
    | none => .error st

/-- Embedding of `YADAGEEngine.update_workflow_state` (engine.py lines
424-474): reconcile the ledger entries of the workflow against the node
states; if any entry was removed, recompute the status and replace the
stored record, otherwise leave the repository untouched. -/
def update_workflow_state (yadage_workflow : YadageWorkflow)
    (workflow_inst : WorkflowDBInstance) (st : EngineState) :
    Except EngineState (Option WorkflowDBInstance × EngineState) :=
  let tasks := list_tasks st workflow_inst.identifier
  if tasks.length > 0 then
    match reconcile_tasks yadage_workflow.dag workflow_inst.identifier tasks st false with
    | .error st' => .error st'
    | .ok (st', has_changes) =>
      if has_changes then
        let state := get_workflow_state yadage_workflow
        let r := db_update_workflow st' workflow_inst.identifier workflow_inst.name
          state yadage_workflow
        .ok (r.1, r.2)
      else .ok (some workflow_inst, st')
  else .ok (some workflow_inst, st)

/-- Embedding of `YADAGEEngine.get_current_workflow_objects`: read the
workflow objects and, when the ledger holds entries for the workflow, run
reconciliation first. -/
def get_current_workflow_objects (st : EngineState) (workflow_id : String) :
    Except EngineState (Option (YadageWorkflow × Option WorkflowDBInstance) × EngineState) :=
  match get_workflow_objects st workflow_id with
  | none => .ok (none, st)
  | some (yadage_workflow, workflow_inst) =>
    if has_tasks st workflow_id then
      match update_workflow_state yadage_workflow workflow_inst st with
      | .error st' => .error st'
      | .ok (r, st') => .ok (some (yadage_workflow, r), st')
    else .ok (some (yadage_workflow, some workflow_inst), st)

/-- Scan of the pending-rule list for the first rule with the given
identifier (engine.py lines 95-101), fused with the removal `del
yadage_workflow.rules[rule_index]`: the matched rule and the remaining list. -/
def extract_rule : List Rule → String → Option (Rule × List Rule)
  | [], _ => none
  | r :: rs, rule_id =>
    if r.identifier = rule_id then some (r, rs)
    else (extract_rule rs rule_id).map (fun p => (p.1, r :: p.2))

/-- Loop of `YADAGEEngine.apply_rules` (engine.py lines 91-109) over the
requested rule identifiers: each is looked up among the remaining pending
rules (failure aborts with False before any repository write), removed,
applied (`Rule.apply` extends the DAG), and appended to the applied log. -/
def apply_rules_loop : YadageWorkflow → List String → Option YadageWorkflow
  | wf, [] => some wf
  | wf, rule_id :: rest =>
    match extract_rule wf.rules rule_id with
    | none => none
    | some (ref_rule, remaining) =>
      apply_rules_loop
        { dag := wf.dag ++ ref_rule.newNodes,
          rules := remaining,
          applied_rules := wf.applied_rules ++ [ref_rule] } rest

/-- Embedding of `YADAGEEngine.apply_rules` (engine.py lines 66-118): under
the lock, reconcile, process the requested rules one at a time, and persist
the mutated workflow with the record's previous state only when every rule
was found. -/
def apply_rules (st : EngineState) (workflow_id : String)
    (rule_instances : List String) : Except EngineState (Bool × EngineState) :=
  match get_current_workflow_objects st workflow_id with
  | .error st' => .error st'
  | .ok (none, st') => .ok (false, st')
  | .ok (some (_, none), st') => .ok (false, st')
  | .ok (some (yadage_workflow, some workflow_inst), st') =>
    match apply_rules_loop yadage_workflow rule_instances with
    | none => .ok (false, st')
    | some wf' =>
      let r := db_update_workflow st' workflow_id workflow_inst.name
        workflow_inst.state wf'
      .ok (true, r.2)

/-- Embedding of `YADAGEEngine.submittable_nodes` (engine.py lines 392-422):
iterate over `dag.nodes()`, skip identifiers with a ledger entry, fetch the
node, skip nodes whose `submit_time` is set, and keep those whose upstream
dependencies are all satisfied. -/
def submittable_nodes (st : EngineState) (workflow : YadageWorkflow)
    (workflow_id : String) : List Node :=
  let pending_nodes := list_tasks st workflow_id
  (workflow.dag.map Node.identifier).filterMap (fun node_id =>
    if node_id ∈ pending_nodes then none
    else
      match getNode workflow.dag node_id with
      | none => none
      | some node =>
        if node.submit_time then none
        else if upstream_ok workflow.dag node then some node
        else none)

/-- Effect of `adage.submit_node` on the in-memory DAG: the dispatched
node's `submit_time` is stamped. -/
def set_submit_time (dag : List Node) (node_id : String) : List Node :=
  dag.map (fun n => if n.identifier = node_id then { n with submit_time := true } else n)

/-- Loop of `YADAGEEngine.submit_nodes` (engine.py lines 379-381) over the
validated nodes: each is dispatched to the backend (`adage.submit_node`,
which also stamps its `submit_time`) and a ledger entry is inserted. -/
def submit_loop (workflow_id : String) :
    List Node → YadageWorkflow → EngineState → YadageWorkflow × EngineState
  | [], wf, st => (wf, st)
  | node :: rest, wf, st =>
    let st1 := create_task
      { st with dispatched := st.dispatched ++ [(workflow_id, node.identifier)] }
      workflow_id node.identifier
    let wf1 := { wf with dag := set_submit_time wf.dag node.identifier }
    submit_loop workflow_id rest wf1 st1

/-- Embedding of `YADAGEEngine.submit_nodes` (engine.py lines 349-390):
under the lock, reconcile, filter the submittable nodes down to the
requested identifiers, reject the whole batch when the counts differ, else
dispatch each node to the backend with a ledger entry, recompute the status
and persist the (submit-time-stamped) graph. -/
def submit_nodes (st : EngineState) (workflow_id : String)
    (node_ids : List String) : Except EngineState (Bool × EngineState) :=
  match get_current_workflow_objects st workflow_id with
  | .error st' => .error st'
  | .ok (none, st') => .ok (false, st')
  | .ok (some (_, none), st') => .ok (false, st')
  | .ok (some (yadage_workflow, some workflow_inst), st') =>
    let nodes := (submittable_nodes st' yadage_workflow workflow_id).filter
      (fun node => node.identifier ∈ node_ids)
    if nodes.length ≠ node_ids.length then .ok (false, st')
    else
      let r1 := submit_loop workflow_id nodes yadage_workflow st'
      let state := get_workflow_state r1.1
      let r := db_update_workflow r1.2 workflow_id workflow_inst.name state r1.1
      .ok (true, r.2)

/-- Body of the `YADAGEEngine.list_workflows` reconciliation loop (engine.py
lines 341-346): load the workflow objects; when both are present reconcile,
otherwise purge the workflow's ledger entries. -/
def reconcile_workflow (st : EngineState) (workflow_id : String) :
    Except EngineState EngineState :=
  match get_workflow_objects st workflow_id with
  | some (yadage_workflow, workflow_inst) =>
    match update_workflow_state yadage_workflow workflow_inst st with
    | .error st' => .error st'
    | .ok (_, st') => .ok st'
  | none => .ok (delete_tasks st workflow_id)

/-- Fold of the reconciliation loop over the ledger's distinct-workflow
index; an exception raised for one workflow propagates and aborts the scan. -/
def list_workflows_scan : List String → EngineState → Except EngineState EngineState
  | [], st => .ok st
  | workflow_id :: rest, st =>
    match reconcile_workflow st workflow_id with
    | .error st' => .error st'
    | .ok st' => list_workflows_scan rest st'

/-- Embedding of `YADAGEEngine.list_workflows` (engine.py lines 331-347):
reconcile every workflow listed in the ledger index, then return the full
repository listing. -/
def list_workflows (st : EngineState) :
    Except EngineState (List WorkflowDBInstance × EngineState) :=
  match list_workflows_scan (tm_list_workflows st) st with
  | .error st' => .error st'
  | .ok st' => .ok (db_list_workflows st', st')

/-- Root context handed to `YadageWorkflow.createFromJSON` (engine.py lines
144-147). -/
structure RootContext where
  readwrite : List String
  readonly : List String
deriving DecidableEq, Repr

/-- The external template interface used by `create_workflow`:
`YadageWorkflow.createFromJSON(workflow_def, root_context)` and
`workflow.view().init(init_data)` of the opaque graph engine, embedded as
functions supplied with the template. -/
structure WorkflowDef where
  createFromJSON : RootContext → YadageWorkflow
  view_init : YadageWorkflow → List (String × String) → YadageWorkflow

/-- Embedding of `os.path.join` for the base-directory/identifier paths the
engine builds. -/
def os_path_join (a b : String) : String := a ++ "/" ++ b

/-- Embedding of `os.makedirs`: raises `OSError` when the directory already
exists, otherwise records the new directory. -/
def os_makedirs (st : EngineState) (dir : String) : Except EngineState EngineState :=
  if dir ∈ st.dirs then .error st
  else .ok { st with dirs := st.dirs ++ [dir] }

/-- Embedding of `YADAGEEngine.create_workflow` (engine.py lines 120-163).
The fresh identifier produced by `str(uuid.uuid4())` is modelled as an input
(the freshness assumption appears as a hypothesis where needed).  A work
directory named by the identifier is created under the engine's base
directory, the graph is instantiated from the template and the init
parameters with the root context scoped to that directory, and the record is
persisted with the baseline state `WORKFLOW_WAITING` (engine.py line 155). -/
def create_workflow (st : EngineState) (work_dir : String)
    (workflow_def : WorkflowDef) (name : String)
    (init_data : List (String × String)) (identifier : String) :
    Except EngineState (WorkflowDBInstance × EngineState) :=
  let workdir := os_path_join work_dir identifier
  match os_makedirs st workdir with
  | .error st' => .error st'
  | .ok st' =>
    let root_context : RootContext := { readwrite := [workdir], readonly := [] }
    let workflow := workflow_def.createFromJSON root_context
    let workflow' := workflow_def.view_init workflow init_data
    db_create_workflow st' identifier name WorkflowState.WAITING workflow'

/-! ### Record serialization (`repository.py` static methods)

The revision of `workflow.py` that `repository.py` was written against is
not part of the sources: `repository.py` references a `workflow.WorkflowState`
carrying a `name`, a `workflow.WORKFLOW_STATES` mapping keyed by those names,
and a `workflow.WorkflowDBInstance` class, none of which the checked-in
`workflow.py` (a different revision, with a list-valued `WORKFLOW_STATES` of
plain strings) defines.  The missing definitions are modelled from the spec. -/

/-- Modelled from the spec: the `name` attribute of the missing
`workflow.WorkflowState` objects, one per state of the spec's status
enumeration (§4.1), read by
`MongoDBWorkflowRepository.get_json_from_instance`. -/
def WorkflowState.name : WorkflowState → String
  | .RUNNING => "RUNNING"
  | .WAITING => "WAITING"
  | .FAILED => "FAILED"
  | .SUCCESS => "SUCCESS"

/-- Modelled from the spec: the missing `workflow.WORKFLOW_STATES` mapping
from a state name to the state object, indexed by
`MongoDBWorkflowRepository.get_instance_from_json`; a missing key raises
`KeyError`, modelled as `none`. -/
def WORKFLOW_STATES : List (String × WorkflowState) :=
  [("RUNNING", WorkflowState.RUNNING), ("WAITING", WorkflowState.WAITING),
   ("FAILED", WorkflowState.FAILED), ("SUCCESS", WorkflowState.SUCCESS)]

/-- A workflow document as stored in the MongoDB collection by
`repository.py`: fields `_id`, `name`, `state` (a state NAME string) and
`workflow`. -/
structure StoredWorkflowJson where
  doc_id : String
  name : String
  state : String
  workflow : YadageWorkflow

/-- Embedding of `MongoDBWorkflowRepository.get_json_from_instance`
(repository.py lines 214-240): the document stores `state.name`. -/
def get_json_from_instance (identifier name : String) (state : WorkflowState)
    (workflow_json : YadageWorkflow) : StoredWorkflowJson :=
  { doc_id := identifier, name := name, state := state.name, workflow := workflow_json }

/-- Embedding of `MongoDBWorkflowRepository.get_instance_from_json`
(repository.py lines 162-186): the state is recovered by evaluating
`workflow.WORKFLOW_STATES[obj['state']]`. -/
def get_instance_from_json (obj : StoredWorkflowJson) : Option WorkflowDBInstance :=
  (WORKFLOW_STATES.lookup obj.state).map (fun s =>
    { identifier := obj.doc_id, name := obj.name, state := s,
      workflow_json := obj.workflow })

/-! ### Predicates used by the claim statements -/

/-- Identifiers of the DAG nodes are pairwise distinct (a DAG well-formedness
invariant of the external graph engine). -/
abbrev DagNodup (wf : YadageWorkflow) : Prop :=
  (wf.dag.map Node.identifier).Nodup

/-- Every ledger-tracked node of the workflow exists in its DAG and is not
terminal; on such a state the reconciliation pass changes nothing. -/
def ReconcileNoop (st : EngineState) (wf : YadageWorkflow) (workflow_id : String) : Prop :=
  ∀ tid ∈ list_tasks st workflow_id, ∃ n, getNode wf.dag tid = some n ∧
    n.state ≠ NodeState.SUCCESS ∧ n.state ≠ NodeState.FAILED

/-! ### Concrete instances used by witnesses and counterexamples -/

/-- A pending rule whose `applicable` predicate is false on every graph. -/
def exRuleC2 : Rule := ⟨"r", fun _ => false, []⟩

/-- A workflow whose only pending rule is not applicable. -/
def exWfC2 : YadageWorkflow := ⟨[], [exRuleC2], []⟩

def exInstC2 : WorkflowDBInstance := ⟨"w", "n", WorkflowState.WAITING, exWfC2⟩

def exStC2 : EngineState := ⟨[exInstC2], [], [], [], 0⟩

/-- The workflow after the non-applicable rule has been applied. -/
def exWfC2' : YadageWorkflow := ⟨[], [], [exRuleC2]⟩

def exStC2' : EngineState := ⟨[⟨"w", "n", WorkflowState.WAITING, exWfC2'⟩], [], [], [], 1⟩

/-- A workflow with a single terminal-success node tracked by the ledger. -/
def exWfC3 : YadageWorkflow := ⟨[⟨"a", NodeState.SUCCESS, true, []⟩], [], []⟩

def exInstC3 : WorkflowDBInstance := ⟨"w", "n", WorkflowState.RUNNING, exWfC3⟩

def exStC3 : EngineState := ⟨[exInstC3], [("w", "a")], [], [], 0⟩

/-- The record after the first reconciliation run on `exStC3`. -/
def exInstC3' : WorkflowDBInstance := ⟨"w", "n", WorkflowState.SUCCESS, exWfC3⟩

def exStC3' : EngineState := ⟨[exInstC3'], [], [], [], 1⟩

/-- A workflow whose ledger holds an orphan entry: node `ghost` does not
exist in the DAG. -/
def exWfC6 : YadageWorkflow := ⟨[⟨"a", NodeState.RUNNING, true, []⟩], [], []⟩

def exInstC6 : WorkflowDBInstance := ⟨"w", "n", WorkflowState.RUNNING, exWfC6⟩

def exStC6 : EngineState := ⟨[exInstC6], [("w", "ghost")], [], [], 0⟩

/-- A workflow whose node `b` depends on the not-yet-successful node `a`. -/
def exWfC4 : YadageWorkflow :=
  ⟨[⟨"a", NodeState.DEFINED, false, []⟩, ⟨"b", NodeState.DEFINED, false, ["a"]⟩], [], []⟩

def exInstC4 : WorkflowDBInstance := ⟨"w", "n", WorkflowState.WAITING, exWfC4⟩

def exStC4 : EngineState := ⟨[exInstC4], [], [], [], 0⟩

/-- A workflow whose node `a` has already been submitted (ledger entry
present, non-terminal). -/
def exWfC5 : YadageWorkflow :=
  ⟨[⟨"a", NodeState.RUNNING, true, []⟩, ⟨"b", NodeState.DEFINED, false, []⟩], [], []⟩

def exInstC5 : WorkflowDBInstance := ⟨"w", "n", WorkflowState.RUNNING, exWfC5⟩

def exStC5 : EngineState := ⟨[exInstC5], [("w", "a")], [], [], 0⟩

/-- Workflow `w1` of the C7 counterexample: its ledger entry `ghost` is an
orphan. -/
def exWf7a : YadageWorkflow := ⟨[⟨"x", NodeState.RUNNING, true, []⟩], [], []⟩

def exInst7a : WorkflowDBInstance := ⟨"w1", "n1", WorkflowState.RUNNING, exWf7a⟩

/-- Workflow `w2` of the C7 counterexample: healthy, with a tracked node that
reached SUCCESS, so reconciling it would purge the entry and update the
record. -/
def exWf7b : YadageWorkflow := ⟨[⟨"b", NodeState.SUCCESS, true, []⟩], [], []⟩

def exInst7b : WorkflowDBInstance := ⟨"w2", "n2", WorkflowState.RUNNING, exWf7b⟩

def exStC7 : EngineState :=
  ⟨[exInst7a, exInst7b], [("w1", "ghost"), ("w2", "b")], [], [], 0⟩

/-- State for the C7 witness: `w1` has a record and a live tracked node;
`w2` appears in the ledger index but its record is gone. -/
def exWf7c : YadageWorkflow := ⟨[⟨"a", NodeState.RUNNING, true, []⟩], [], []⟩

def exInst7c : WorkflowDBInstance := ⟨"w1", "n1", WorkflowState.RUNNING, exWf7c⟩

def exStC7w : EngineState := ⟨[exInst7c], [("w1", "a"), ("w2", "z")], [], [], 0⟩

/-- Template used by the C8 witness: instantiation ignores the init
parameters and produces the empty graph. -/
def exDefC8 : WorkflowDef := ⟨fun _ => ⟨[], [], []⟩, fun wf _ => wf⟩

def exStC8 : EngineState := ⟨[], [], [], [], 0⟩

/-! ### Helper lemmas on the status-derivation loop -/

theorem stateLoop_failed_mem (ns : List NodeState) :
    ∀ s, NodeState.FAILED ∈ ns → stateLoop s ns = WorkflowState.FAILED := by
  induction ns with
  | nil => intro s h; simp at h
  | cons n ns ih =>
    intro s h
    by_cases hn : n = NodeState.FAILED
    · simp [stateLoop, hn]
    · have : NodeState.FAILED ∈ ns := by
        rcases List.mem_cons.mp h with h' | h'
        · exact absurd h'.symm hn
        · exact h'
      simp only [stateLoop, if_neg hn]
      exact ih _ this

theorem stateLoop_running_fix (ns : List NodeState) :
    NodeState.FAILED ∉ ns → stateLoop WorkflowState.RUNNING ns = WorkflowState.RUNNING := by
  induction ns with
  | nil => intro _; rfl
  | cons n ns ih =>
    intro h
    have hn : n ≠ NodeState.FAILED := fun hc => h (hc ▸ List.mem_cons_self n ns)
    have hns : NodeState.FAILED ∉ ns := fun hc => h (List.mem_cons_of_mem n hc)
    simp only [stateLoop, if_neg hn]
    by_cases hr : n = NodeState.RUNNING
    · simp only [if_pos hr]
      have : ¬(n = NodeState.DEFINED ∧ WorkflowState.RUNNING ≠ WorkflowState.FAILED ∧
          WorkflowState.RUNNING ≠ WorkflowState.RUNNING) := by
        intro ⟨_, _, hc⟩; exact hc rfl
      simp only [if_neg this]
      exact ih hns
    · simp only [if_neg hr]
      by_cases hd : n = NodeState.DEFINED
      · have : ¬(n = NodeState.DEFINED ∧ WorkflowState.RUNNING ≠ WorkflowState.FAILED ∧
            WorkflowState.RUNNING ≠ WorkflowState.RUNNING) := by
          intro ⟨_, _, hc⟩; exact hc rfl
        simp only [if_neg this]
        exact ih hns
      · have : ¬(n = NodeState.DEFINED ∧ WorkflowState.RUNNING ≠ WorkflowState.FAILED ∧
            WorkflowState.RUNNING ≠ WorkflowState.RUNNING) := by
          intro ⟨hc, _, _⟩; exact hd hc
        simp only [if_neg this]
        exact ih hns

theorem stateLoop_running_mem (ns : List NodeState) :
    ∀ s, NodeState.FAILED ∉ ns → NodeState.RUNNING ∈ ns →
      stateLoop s ns = WorkflowState.RUNNING := by
  induction ns with
  | nil => intro s _ h; simp at h
  | cons n ns ih =>
    intro s h hr
    have hn : n ≠ NodeState.FAILED := fun hc => h (hc ▸ List.mem_cons_self n ns)
    have hns : NodeState.FAILED ∉ ns := fun hc => h (List.mem_cons_of_mem n hc)
    simp only [stateLoop, if_neg hn]
    by_cases hnr : n = NodeState.RUNNING
    · simp only [if_pos hnr]
      have : ¬(n = NodeState.DEFINED ∧ WorkflowState.RUNNING ≠ WorkflowState.FAILED ∧
          WorkflowState.RUNNING ≠ WorkflowState.RUNNING) := by
        intro ⟨_, _, hc⟩; exact hc rfl
      simp only [if_neg this]
      exact stateLoop_running_fix ns hns
    · have hrs : NodeState.RUNNING ∈ ns := by
        rcases List.mem_cons.mp hr with h' | h'
        · exact absurd h'.symm hnr
        · exact h'
      exact ih _ hns hrs

theorem stateLoop_waiting_fix (ns : List NodeState) :
    NodeState.FAILED ∉ ns → NodeState.RUNNING ∉ ns →
      stateLoop WorkflowState.WAITING ns = WorkflowState.WAITING := by
  induction ns with
  | nil => intro _ _; rfl
  | cons n ns ih =>
    intro h hr
    have hn : n ≠ NodeState.FAILED := fun hc => h (hc ▸ List.mem_cons_self n ns)
    have hnr : n ≠ NodeState.RUNNING := fun hc => hr (hc ▸ List.mem_cons_self n ns)
    have hns : NodeState.FAILED ∉ ns := fun hc => h (List.mem_cons_of_mem n hc)
    have hnrs : NodeState.RUNNING ∉ ns := fun hc => hr (List.mem_cons_of_mem n hc)
    simp only [stateLoop, if_neg hn, if_neg hnr]
    by_cases hd : n = NodeState.DEFINED
    · have : (n = NodeState.DEFINED ∧ WorkflowState.WAITING ≠ WorkflowState.FAILED ∧
          WorkflowState.WAITING ≠ WorkflowState.RUNNING) := ⟨hd, by decide, by decide⟩
      simp only [if_pos this]
      exact ih hns hnrs
    · have : ¬(n = NodeState.DEFINED ∧ WorkflowState.WAITING ≠ WorkflowState.FAILED ∧
          WorkflowState.WAITING ≠ WorkflowState.RUNNING) := by
        intro ⟨hc, _, _⟩; exact hd hc
      simp only [if_neg this]
      exact ih hns hnrs

theorem stateLoop_defined_mem (ns : List NodeState) :
    ∀ s, s ≠ WorkflowState.FAILED → s ≠ WorkflowState.RUNNING →
      NodeState.FAILED ∉ ns → NodeState.RUNNING ∉ ns → NodeState.DEFINED ∈ ns →
      stateLoop s ns = WorkflowState.WAITING := by
  induction ns with
  | nil => intro s _ _ _ _ h; simp at h
  | cons n ns ih =>
    intro s hsf hsr h hr hd
    have hn : n ≠ NodeState.FAILED := fun hc => h (hc ▸ List.mem_cons_self n ns)
    have hnr : n ≠ NodeState.RUNNING := fun hc => hr (hc ▸ List.mem_cons_self n ns)
    have hns : NodeState.FAILED ∉ ns := fun hc => h (List.mem_cons_of_mem n hc)
    have hnrs : NodeState.RUNNING ∉ ns := fun hc => hr (List.mem_cons_of_mem n hc)
    simp only [stateLoop, if_neg hn, if_neg hnr]
    by_cases hnd : n = NodeState.DEFINED
    · have : (n = NodeState.DEFINED ∧ s ≠ WorkflowState.FAILED ∧
          s ≠ WorkflowState.RUNNING) := ⟨hnd, hsf, hsr⟩
      simp only [if_pos this]
      exact stateLoop_waiting_fix ns hns hnrs
    · have hds : NodeState.DEFINED ∈ ns := by
        rcases List.mem_cons.mp hd with h' | h'
        · exact absurd h'.symm hnd
        · exact h'
      have : ¬(n = NodeState.DEFINED ∧ s ≠ WorkflowState.FAILED ∧
          s ≠ WorkflowState.RUNNING) := by
        intro ⟨hc, _, _⟩; exact hnd hc
      simp only [if_neg this]
      exact ih s hsf hsr hns hnrs hds

theorem stateLoop_success_all (ns : List NodeState) :
    ∀ s, (∀ n ∈ ns, n = NodeState.SUCCESS) → stateLoop s ns = s := by
  induction ns with
  | nil => intro s _; rfl
  | cons n ns ih =>
    intro s h
    have hn : n = NodeState.SUCCESS := h n (List.mem_cons_self n ns)
    subst hn
    simp only [stateLoop]
    norm_num
    exact ih s (fun m hm => h m (List.mem_cons_of_mem _ hm))

/-! ### Claim theorems: status derivation -/

/-- C1: the derived workflow status follows the priority order
FAILED > RUNNING > WAITING > SUCCESS: any FAILED node gives FAILED; otherwise
any RUNNING node gives RUNNING; otherwise a still-DEFINED node or a pending
rule gives WAITING; otherwise (all nodes terminal-successful, no pending
rules) SUCCESS.  In particular a graph with one FAILED and one RUNNING node
derives FAILED, never RUNNING, whatever the node order. -/
theorem C1_status_priority (wf : YadageWorkflow) :
    ((∃ n ∈ wf.dag, n.state = NodeState.FAILED) →
      get_workflow_state wf = WorkflowState.FAILED) ∧
    ((∀ n ∈ wf.dag, n.state ≠ NodeState.FAILED) →
      (∃ n ∈ wf.dag, n.state = NodeState.RUNNING) →
      get_workflow_state wf = WorkflowState.RUNNING) ∧
    ((∀ n ∈ wf.dag, n.state ≠ NodeState.FAILED) →
      (∀ n ∈ wf.dag, n.state ≠ NodeState.RUNNING) →
      ((∃ n ∈ wf.dag, n.state = NodeState.DEFINED) ∨ wf.rules ≠ []) →
      get_workflow_state wf = WorkflowState.WAITING) ∧
    ((∀ n ∈ wf.dag, n.state = NodeState.SUCCESS) → wf.rules = [] →
      get_workflow_state wf = WorkflowState.SUCCESS) := by
  refine ⟨?_, ?_, ?_, ?_⟩
  · rintro ⟨n, hn, hs⟩
    exact stateLoop_failed_mem _ _ (List.mem_map.mpr ⟨n, hn, hs⟩)
  · intro hnf hr
    rcases hr with ⟨n, hn, hs⟩
    have h1 : NodeState.FAILED ∉ wf.dag.map Node.state := by
      intro hc
      rcases List.mem_map.mp hc with ⟨m, hm, hms⟩
      exact hnf m hm hms
    exact stateLoop_running_mem _ _ h1 (List.mem_map.mpr ⟨n, hn, hs⟩)
  · intro hnf hnr hw
    have h1 : NodeState.FAILED ∉ wf.dag.map Node.state := by
      intro hc
      rcases List.mem_map.mp hc with ⟨m, hm, hms⟩
      exact hnf m hm hms
    have h2 : NodeState.RUNNING ∉ wf.dag.map Node.state := by
      intro hc
      rcases List.mem_map.mp hc with ⟨m, hm, hms⟩
      exact hnr m hm hms
    rcases hw with ⟨n, hn, hs⟩ | hrules
    · unfold get_workflow_state
      exact stateLoop_defined_mem _ _
        (by split <;> decide) (by split <;> decide) h1 h2
        (List.mem_map.mpr ⟨n, hn, hs⟩)
    · have hlen : wf.rules.length > 0 := by
        cases hr : wf.rules with
        | nil => exact absurd hr hrules
        | cons a l => simp [hr]
      unfold get_workflow_state
      rw [if_pos hlen]
      exact stateLoop_waiting_fix _ h1 h2
  · intro hall hrules
    have hlen : ¬ wf.rules.length > 0 := by simp [hrules]
    unfold get_workflow_state
    rw [if_neg hlen]
    exact stateLoop_success_all _ _ (by
      intro n hn
      rcases List.mem_map.mp hn with ⟨m, hm, hms⟩
      exact hms ▸ hall m hm)

/-- Witness for C1: a two-node graph holding one FAILED and one RUNNING node
(in this order RUNNING first) derives FAILED. -/
theorem C1_status_priority_witness :
    get_workflow_state
      { dag := [⟨"a", NodeState.RUNNING, true, []⟩, ⟨"b", NodeState.FAILED, true, []⟩],
        rules := [], applied_rules := [] } = WorkflowState.FAILED :=
  (C1_status_priority
    { dag := [⟨"a", NodeState.RUNNING, true, []⟩, ⟨"b", NodeState.FAILED, true, []⟩],
      rules := [], applied_rules := [] }).1
    ⟨⟨"b", NodeState.FAILED, true, []⟩, by decide, rfl⟩

/-- C9: on a workflow whose graph has no nodes the derived status is the
initial value of the status loop: SUCCESS when no rule is pending and
WAITING when at least one rule is pending. -/
theorem C9_empty_graph_status (wf : YadageWorkflow) (h : wf.dag = []) :
    (wf.rules = [] → get_workflow_state wf = WorkflowState.SUCCESS) ∧
    (wf.rules ≠ [] → get_workflow_state wf = WorkflowState.WAITING) := by
  constructor
  · intro hr
    simp [get_workflow_state, h, hr, stateLoop]
  · intro hr
    have hlen : wf.rules.length > 0 := by
      cases hrr : wf.rules with
      | nil => exact absurd hrr hr
      | cons a l => simp [hrr]
    simp [get_workflow_state, h, if_pos hlen, stateLoop]

/-- Witness for C9: the empty graph with one pending rule derives WAITING. -/
theorem C9_empty_graph_status_witness :
    get_workflow_state
      { dag := [], rules := [⟨"r", fun _ => true, []⟩], applied_rules := [] }
      = WorkflowState.WAITING :=
  (C9_empty_graph_status
    { dag := [], rules := [⟨"r", fun _ => true, []⟩], applied_rules := [] } rfl).2
    (by simp)

/-! ### Helper lemmas: ledger and repository -/

theorem mem_list_tasks {st : EngineState} {workflow_id tid : String} :
    tid ∈ list_tasks st workflow_id ↔ (workflow_id, tid) ∈ st.ledger := by
  simp only [list_tasks, List.mem_map, List.mem_filter, decide_eq_true_eq]
  constructor
  · rintro ⟨p, ⟨hp, h1⟩, h2⟩
    have : p = (workflow_id, tid) := Prod.ext h1 h2
    exact this ▸ hp
  · intro hp
    exact ⟨(workflow_id, tid), ⟨hp, rfl⟩, rfl⟩

theorem delete_task_not_mem (st : EngineState) (workflow_id tid : String) :
    (workflow_id, tid) ∉ (delete_task st workflow_id tid).ledger := by
  simp [delete_task, List.mem_filter]

theorem delete_task_subset (st : EngineState) (workflow_id tid : String) :
    (delete_task st workflow_id tid).ledger ⊆ st.ledger :=
  fun p hp => (List.mem_filter.mp hp).1

theorem list_tasks_delete_task_ne (st : EngineState) {workflow_id wid' : String}
    (tid : String) (h : wid' ≠ workflow_id) :
    list_tasks (delete_task st workflow_id tid) wid' = list_tasks st wid' := by
  simp only [list_tasks, delete_task, List.filter_filter]
  congr 1
  apply List.filter_congr
  intro p _
  by_cases hg : p.1 = wid'
  · have : ¬(p.1 = workflow_id ∧ p.2 = tid) := by
      intro ⟨hc, _⟩; exact h (hg ▸ hc)
    simp [hg, this]
    exact Or.inl h
  · simp [hg]

theorem list_tasks_delete_tasks_ne (st : EngineState) {workflow_id wid' : String}
    (h : wid' ≠ workflow_id) :
    list_tasks (delete_tasks st workflow_id) wid' = list_tasks st wid' := by
  simp only [list_tasks, delete_tasks, List.filter_filter]
  congr 1
  apply List.filter_congr
  intro p _
  by_cases hg : p.1 = wid'
  · have : ¬ p.1 = workflow_id := by rw [hg]; exact h
    simp [hg, this]
    exact h
  · simp [hg]

theorem delete_tasks_not_mem (st : EngineState) (workflow_id : String) (p : String × String)
    (h : p.1 = workflow_id) : p ∉ (delete_tasks st workflow_id).ledger := by
  intro hc
  rcases List.mem_filter.mp hc with ⟨_, hpred⟩
  simp [h] at hpred

theorem delete_tasks_subset (st : EngineState) (workflow_id : String) :
    (delete_tasks st workflow_id).ledger ⊆ st.ledger :=
  fun p hp => (List.mem_filter.mp hp).1

theorem getNode_eq_some {dag : List Node} {nid : String} {n : Node}
    (h : getNode dag nid = some n) : n ∈ dag ∧ n.identifier = nid := by
  refine ⟨List.mem_of_find?_eq_some h, ?_⟩
  have := List.find?_some h
  simpa using this

theorem getNode_self {dag : List Node} (h : (dag.map Node.identifier).Nodup)
    {n : Node} (hn : n ∈ dag) : getNode dag n.identifier = some n := by
  induction dag with
  | nil => cases hn
  | cons m rest ih =>
    rcases List.mem_cons.mp hn with rfl | hn'
    · simp [getNode, List.find?]
    · have hm : ¬ m.identifier = n.identifier := by
        intro hc
        exact (List.nodup_cons.mp h).1 (hc ▸ List.mem_map_of_mem Node.identifier hn')
      have hrest : (rest.map Node.identifier).Nodup := (List.nodup_cons.mp h).2
      simp only [getNode, List.find?]
      rw [show (decide (m.identifier = n.identifier)) = false by simpa using hm]
      exact ih hrest hn'

theorem db_get_some {st : EngineState} {workflow_id : String} {inst : WorkflowDBInstance}
    (h : db_get_workflow st workflow_id = some inst) :
    inst ∈ st.repo ∧ inst.identifier = workflow_id := by
  refine ⟨List.mem_of_find?_eq_some h, ?_⟩
  have := List.find?_some h
  simpa using this

theorem db_get_any {st : EngineState} {workflow_id : String} {inst : WorkflowDBInstance}
    (h : db_get_workflow st workflow_id = some inst) :
    st.repo.any (fun r => r.identifier = workflow_id) = true := by
  rcases db_get_some h with ⟨hm, hid⟩
  exact List.any_eq_true.mpr ⟨inst, hm, by simpa using hid⟩

/-! ### Helper lemmas: reconciliation -/

theorem reconcile_tasks_noop (dag : List Node) (workflow_id : String)
    (tids : List String) : ∀ (st : EngineState) (ch : Bool),
    (∀ tid ∈ tids, ∃ n, getNode dag tid = some n ∧
      n.state ≠ NodeState.SUCCESS ∧ n.state ≠ NodeState.FAILED) →
    reconcile_tasks dag workflow_id tids st ch = .ok (st, ch) := by
  induction tids with
  | nil => intro st ch _; rfl
  | cons t ts ih =>
    intro st ch h
    obtain ⟨n, hn, hs, hf⟩ := h t (List.mem_cons_self t ts)
    have hterm : ¬(n.state = NodeState.SUCCESS ∨ n.state = NodeState.FAILED) := by
      rintro (hc | hc)
      · exact hs hc
      · exact hf hc
    simp only [reconcile_tasks, hn, if_neg hterm]
    exact ih st ch (fun tid htid => h tid (List.mem_cons_of_mem t htid))

theorem reconcile_tasks_ok_struct (dag : List Node) (workflow_id : String)
    (tids : List String) : ∀ (st : EngineState) (ch : Bool) st' ch',
    reconcile_tasks dag workflow_id tids st ch = .ok (st', ch') →
    st'.repo = st.repo ∧ st'.dispatched = st.dispatched ∧ st'.dirs = st.dirs ∧
      st'.writes = st.writes ∧ st'.ledger ⊆ st.ledger := by
  induction tids with
  | nil =>
    intro st ch st' ch' h
    simp only [reconcile_tasks, Except.ok.injEq, Prod.mk.injEq] at h
    obtain ⟨h1, _⟩ := h
    subst h1
    exact ⟨rfl, rfl, rfl, rfl, fun p hp => hp⟩
  | cons t ts ih =>
    intro st ch st' ch' h
    cases hg : getNode dag t with
    | none => simp [reconcile_tasks, hg] at h
    | some n =>
      simp only [reconcile_tasks, hg] at h
      by_cases ht : n.state = NodeState.SUCCESS ∨ n.state = NodeState.FAILED
      · rw [if_pos ht] at h
        obtain ⟨h1, h2, h3, h4, h5⟩ := ih _ _ _ _ h
        exact ⟨h1, h2, h3, h4, fun p hp => delete_task_subset st workflow_id t (h5 hp)⟩
      · rw [if_neg ht] at h
        exact ih _ _ _ _ h

theorem reconcile_tasks_true (dag : List Node) (workflow_id : String)
    (tids : List String) : ∀ (st : EngineState) st' ch',
    reconcile_tasks dag workflow_id tids st true = .ok (st', ch') → ch' = true := by
  induction tids with
  | nil =>
    intro st st' ch' h
    simp only [reconcile_tasks, Except.ok.injEq, Prod.mk.injEq] at h
    exact h.2.symm
  | cons t ts ih =>
    intro st st' ch' h
    cases hg : getNode dag t with
    | none => simp [reconcile_tasks, hg] at h
    | some n =>
      simp only [reconcile_tasks, hg] at h
      by_cases ht : n.state = NodeState.SUCCESS ∨ n.state = NodeState.FAILED
      · rw [if_pos ht] at h
        exact ih _ _ _ h
      · rw [if_neg ht] at h
        exact ih _ _ _ h

theorem reconcile_tasks_false (dag : List Node) (workflow_id : String)
    (tids : List String) : ∀ (st : EngineState) st',
    reconcile_tasks dag workflow_id tids st false = .ok (st', false) → st' = st := by
  induction tids with
  | nil =>
    intro st st' h
    simp only [reconcile_tasks, Except.ok.injEq, Prod.mk.injEq] at h
    exact h.1.symm
  | cons t ts ih =>
    intro st st' h
    cases hg : getNode dag t with
    | none => simp [reconcile_tasks, hg] at h
    | some n =>
      simp only [reconcile_tasks, hg] at h
      by_cases ht : n.state = NodeState.SUCCESS ∨ n.state = NodeState.FAILED
      · rw [if_pos ht] at h
        have := reconcile_tasks_true dag workflow_id ts _ _ _ h
        simp at this
      · rw [if_neg ht] at h
        exact ih _ _ h

theorem reconcile_tasks_exists_terminal (dag : List Node) (workflow_id : String)
    (tids : List String) : ∀ (st : EngineState) st',
    reconcile_tasks dag workflow_id tids st false = .ok (st', true) →
    ∃ tid ∈ tids, ∃ n, getNode dag tid = some n ∧
      (n.state = NodeState.SUCCESS ∨ n.state = NodeState.FAILED) := by
  induction tids with
  | nil =>
    intro st st' h
    simp only [reconcile_tasks, Except.ok.injEq, Prod.mk.injEq] at h
    exact absurd h.2 (by simp)
  | cons t ts ih =>
    intro st st' h
    cases hg : getNode dag t with
    | none => simp [reconcile_tasks, hg] at h
    | some n =>
      simp only [reconcile_tasks, hg] at h
      by_cases ht : n.state = NodeState.SUCCESS ∨ n.state = NodeState.FAILED
      · exact ⟨t, List.mem_cons_self t ts, n, hg, ht⟩
      · rw [if_neg ht] at h
        obtain ⟨tid, htid, hx⟩ := ih _ _ h
        exact ⟨tid, List.mem_cons_of_mem t htid, hx⟩

theorem reconcile_tasks_processed (dag : List Node) (workflow_id : String)
    (tids : List String) : ∀ (st : EngineState) (ch : Bool) st' ch',
    reconcile_tasks dag workflow_id tids st ch = .ok (st', ch') →
    ∀ tid ∈ tids, (workflow_id, tid) ∉ st'.ledger ∨
      ∃ n, getNode dag tid = some n ∧
        n.state ≠ NodeState.SUCCESS ∧ n.state ≠ NodeState.FAILED := by
  induction tids with
  | nil => intro st ch st' ch' _ tid htid; simp at htid
  | cons t ts ih =>
    intro st ch st' ch' h tid htid
    cases hg : getNode dag t with
    | none => simp [reconcile_tasks, hg] at h
    | some n =>
      simp only [reconcile_tasks, hg] at h
      by_cases ht : n.state = NodeState.SUCCESS ∨ n.state = NodeState.FAILED
      · rw [if_pos ht] at h
        rcases List.mem_cons.mp htid with rfl | htid'
        · left
          intro hc
          have hsub := (reconcile_tasks_ok_struct dag workflow_id ts _ _ _ _ h).2.2.2.2
          exact delete_task_not_mem st workflow_id tid (hsub hc)
        · exact ih _ _ _ _ h tid htid'
      · rw [if_neg ht] at h
        rcases List.mem_cons.mp htid with rfl | htid'
        · right
          refine ⟨n, hg, ?_, ?_⟩
          · intro hc; exact ht (Or.inl hc)
          · intro hc; exact ht (Or.inr hc)
        · exact ih _ _ _ _ h tid htid'

theorem reconcile_tasks_other (dag : List Node) (workflow_id : String)
    (tids : List String) : ∀ (st : EngineState) (ch : Bool) st' ch',
    reconcile_tasks dag workflow_id tids st ch = .ok (st', ch') →
    ∀ wid', wid' ≠ workflow_id → list_tasks st' wid' = list_tasks st wid' := by
  induction tids with
  | nil =>
    intro st ch st' ch' h wid' _
    simp only [reconcile_tasks, Except.ok.injEq, Prod.mk.injEq] at h
    rw [← h.1]
  | cons t ts ih =>
    intro st ch st' ch' h wid' hw
    cases hg : getNode dag t with
    | none => simp [reconcile_tasks, hg] at h
    | some n =>
      simp only [reconcile_tasks, hg] at h
      by_cases ht : n.state = NodeState.SUCCESS ∨ n.state = NodeState.FAILED
      · rw [if_pos ht] at h
        rw [ih _ _ _ _ h wid' hw]
        exact list_tasks_delete_task_ne st t hw
      · rw [if_neg ht] at h
        exact ih _ _ _ _ h wid' hw

theorem reconcile_tasks_total (dag : List Node) (workflow_id : String)
    (tids : List String) : ∀ (st : EngineState) (ch : Bool),
    (∀ tid ∈ tids, ∃ n, getNode dag tid = some n) →
    ∃ st' ch', reconcile_tasks dag workflow_id tids st ch = .ok (st', ch') := by
  induction tids with
  | nil => intro st ch _; exact ⟨st, ch, rfl⟩
  | cons t ts ih =>
    intro st ch h
    obtain ⟨n, hn⟩ := h t (List.mem_cons_self t ts)
    have hrest : ∀ tid ∈ ts, ∃ n, getNode dag tid = some n :=
      fun tid htid => h tid (List.mem_cons_of_mem t htid)
    simp only [reconcile_tasks, hn]
    by_cases ht : n.state = NodeState.SUCCESS ∨ n.state = NodeState.FAILED
    · rw [if_pos ht]
      exact ih _ _ hrest
    · rw [if_neg ht]
      exact ih _ _ hrest

theorem update_workflow_state_noop {wf : YadageWorkflow} {inst : WorkflowDBInstance}
    {st : EngineState} (h : ReconcileNoop st wf inst.identifier) :
    update_workflow_state wf inst st = .ok (some inst, st) := by
  have h' : ∀ tid ∈ list_tasks st inst.identifier, ∃ n, getNode wf.dag tid = some n ∧
      n.state ≠ NodeState.SUCCESS ∧ n.state ≠ NodeState.FAILED := h
  unfold update_workflow_state
  by_cases hl : (list_tasks st inst.identifier).length > 0
  · rw [if_pos hl, reconcile_tasks_noop wf.dag inst.identifier _ st false h']
    rfl
  · rw [if_neg hl]

theorem get_current_noop {st : EngineState} {workflow_id : String}
    {inst : WorkflowDBInstance}
    (h1 : db_get_workflow st workflow_id = some inst)
    (h2 : ReconcileNoop st inst.workflow_json workflow_id) :
    get_current_workflow_objects st workflow_id =
      .ok (some (inst.workflow_json, some inst), st) := by
  have hid : inst.identifier = workflow_id := (db_get_some h1).2
  have h2' : ReconcileNoop st inst.workflow_json inst.identifier := by
    rw [hid]; exact h2
  unfold get_current_workflow_objects get_workflow_objects
  rw [h1]
  by_cases htk : has_tasks st workflow_id = true
  · simp only [htk, if_true, update_workflow_state_noop h2']
  · simp only [htk, if_false, Bool.false_eq_true]

/-- C3: reconciliation is idempotent.  A successful `update_workflow_state`
run is a fixed point: running it again on the produced record and state
returns them unchanged (in particular the stored record is identical and the
write counter does not move).  Moreover the first run performed a repository
write only if some ledger-tracked node was observed in a terminal state, and
when no tracked node was terminal the stored record and state were left
untouched. -/
theorem C3_reconciliation_idempotent
    (wf : YadageWorkflow) (inst inst1 : WorkflowDBInstance) (st st1 : EngineState)
    (h : update_workflow_state wf inst st = .ok (some inst1, st1)) :
    update_workflow_state wf inst1 st1 = .ok (some inst1, st1) ∧
    (st1.writes ≠ st.writes →
      ∃ tid ∈ list_tasks st inst.identifier, ∃ n, getNode wf.dag tid = some n ∧
        (n.state = NodeState.SUCCESS ∨ n.state = NodeState.FAILED)) ∧
    ((∀ tid ∈ list_tasks st inst.identifier, ∀ n, getNode wf.dag tid = some n →
        ¬(n.state = NodeState.SUCCESS ∨ n.state = NodeState.FAILED)) →
      st1 = st ∧ inst1 = inst) := by
  have h0 := h
  unfold update_workflow_state at h
  by_cases hl : (list_tasks st inst.identifier).length > 0
  · rw [if_pos hl] at h
    cases hrec : reconcile_tasks wf.dag inst.identifier (list_tasks st inst.identifier)
        st false with
    | error e => rw [hrec] at h; simp at h
    | ok p =>
      obtain ⟨st', ch⟩ := p
      rw [hrec] at h
      simp only at h
      by_cases hch : ch = true
      · subst hch
        rw [if_pos rfl] at h
        by_cases hm : st'.repo.any (fun r => r.identifier = inst.identifier) = true
        · simp only [db_update_workflow, hm, if_true, Except.ok.injEq,
            Prod.mk.injEq, Option.some.injEq] at h
          obtain ⟨hinst1, hst1⟩ := h
          subst hinst1
          subst hst1
          obtain ⟨hrepo, hdisp, hdirs, hwrites, hledger⟩ :=
            reconcile_tasks_ok_struct wf.dag inst.identifier _ _ _ _ _ hrec
          have hterm := reconcile_tasks_exists_terminal wf.dag inst.identifier _ _ _ hrec
          refine ⟨?_, fun _ => hterm, ?_⟩
          · -- second run: every remaining tracked task is a live non-terminal node
            have hnoop : ReconcileNoop
                { st' with
                    repo := replace_record st'.repo inst.identifier
                      ⟨inst.identifier, inst.name, get_workflow_state wf, wf⟩,
                    writes := st'.writes + 1 }
                wf inst.identifier := by
              intro tid htid
              have htid' : (inst.identifier, tid) ∈ st'.ledger :=
                mem_list_tasks.mp htid
              have htid0 : tid ∈ list_tasks st inst.identifier :=
                mem_list_tasks.mpr (hledger htid')
              rcases reconcile_tasks_processed wf.dag inst.identifier _ _ _ _ _
                  hrec tid htid0 with hgone | hlive
              · exact absurd htid' hgone
              · exact hlive
            exact update_workflow_state_noop hnoop
          · intro hno
            obtain ⟨tid, htid, n, hn, hterm'⟩ := hterm
            exact absurd hterm' (hno tid htid n hn)
        · simp only [db_update_workflow, hm, if_false, Except.ok.injEq,
            Prod.mk.injEq, Bool.false_eq_true] at h
          exact absurd h.1 (by simp)
      · have hchf : ch = false := by
          cases ch
          · rfl
          · exact absurd rfl hch
        subst hchf
        rw [if_neg (by simp)] at h
        simp only [Except.ok.injEq, Prod.mk.injEq, Option.some.injEq] at h
        obtain ⟨hinst1, hst1⟩ := h
        have hst0 : st' = st := reconcile_tasks_false wf.dag inst.identifier _ _ _ hrec
        subst hst0
        subst hinst1
        subst hst1
        exact ⟨h0, fun hc => absurd rfl hc, fun _ => ⟨rfl, rfl⟩⟩
  · rw [if_neg hl] at h
    simp only [Except.ok.injEq, Prod.mk.injEq, Option.some.injEq] at h
    obtain ⟨hinst1, hst1⟩ := h
    subst hinst1
    subst hst1
    exact ⟨h0, fun hc => absurd rfl hc, fun _ => ⟨rfl, rfl⟩⟩

/-! ### Helper lemmas: repository update -/

theorem db_update_struct (st : EngineState) (workflow_id name : String)
    (state : WorkflowState) (workflow_json : YadageWorkflow) :
    (db_update_workflow st workflow_id name state workflow_json).2.ledger = st.ledger ∧
    (db_update_workflow st workflow_id name state workflow_json).2.dispatched
      = st.dispatched ∧
    (db_update_workflow st workflow_id name state workflow_json).2.dirs = st.dirs := by
  unfold db_update_workflow
  split
  · exact ⟨rfl, rfl, rfl⟩
  · exact ⟨rfl, rfl, rfl⟩

theorem find_replace_record_self (repo : List WorkflowDBInstance)
    (workflow_id : String) (inst : WorkflowDBInstance)
    (hinst : inst.identifier = workflow_id)
    (h : ∃ r ∈ repo, r.identifier = workflow_id) :
    (replace_record repo workflow_id inst).find?
      (fun r => decide (r.identifier = workflow_id)) = some inst := by
  induction repo with
  | nil => simp at h
  | cons r rs ih =>
    by_cases hr : r.identifier = workflow_id
    · simp [replace_record, hr, List.find?, hinst]
    · simp only [replace_record, if_neg hr, List.find?]
      rw [show (decide (r.identifier = workflow_id)) = false by simpa using hr]
      rcases h with ⟨x, hx, hxid⟩
      rcases List.mem_cons.mp hx with rfl | hx'
      · exact absurd hxid hr
      · exact ih ⟨x, hx', hxid⟩

theorem find_replace_record_ne (repo : List WorkflowDBInstance)
    (workflow_id : String) (inst : WorkflowDBInstance) {wid' : String}
    (hinst : inst.identifier = workflow_id) (h : wid' ≠ workflow_id) :
    (replace_record repo workflow_id inst).find?
        (fun r => decide (r.identifier = wid')) =
      repo.find? (fun r => decide (r.identifier = wid')) := by
  induction repo with
  | nil => rfl
  | cons r rs ih =>
    by_cases hr : r.identifier = workflow_id
    · simp only [replace_record, if_pos hr, List.find?]
      rw [show (decide (inst.identifier = wid')) = false by
        simp only [decide_eq_false_iff_not]
        rw [hinst]
        exact fun hc => h hc.symm]
      rw [show (decide (r.identifier = wid')) = false by
        simp only [decide_eq_false_iff_not]
        rw [hr]
        exact fun hc => h hc.symm]
    · simp only [replace_record, if_neg hr, List.find?]
      cases hd : decide (r.identifier = wid') with
      | true => rfl
      | false => exact ih

theorem db_get_update_self (st : EngineState) (workflow_id name : String)
    (state : WorkflowState) (workflow_json : YadageWorkflow)
    (h : st.repo.any (fun r => r.identifier = workflow_id) = true) :
    db_get_workflow (db_update_workflow st workflow_id name state workflow_json).2
      workflow_id = some ⟨workflow_id, name, state, workflow_json⟩ := by
  simp only [db_update_workflow, h, if_true]
  apply find_replace_record_self
  · rfl
  · simpa using h

theorem db_get_update_ne (st : EngineState) (workflow_id name : String)
    (state : WorkflowState) (workflow_json : YadageWorkflow) {wid' : String}
    (h : wid' ≠ workflow_id) :
    db_get_workflow (db_update_workflow st workflow_id name state workflow_json).2
      wid' = db_get_workflow st wid' := by
  unfold db_update_workflow
  by_cases hm : st.repo.any (fun r => r.identifier = workflow_id) = true
  · simp only [hm, if_true]
    exact find_replace_record_ne st.repo workflow_id _ rfl h
  · simp only [hm, if_false]
    rfl

/-! ### Helper lemmas: rule extraction and the apply loop -/

theorem extract_rule_none {rules : List Rule} {rule_id : String} :
    extract_rule rules rule_id = none ↔ rule_id ∉ rules.map Rule.identifier := by
  induction rules with
  | nil => simp [extract_rule]
  | cons r rs ih =>
    by_cases hr : r.identifier = rule_id
    · simp [extract_rule, hr]
    · simp only [extract_rule, if_neg hr, Option.map_eq_none', ih, List.map_cons,
        List.mem_cons]
      constructor
      · intro hn hc
        rcases hc with hc | hc
        · exact hr hc.symm
        · exact hn hc
      · intro hn hc
        exact hn (Or.inr hc)

theorem extract_rule_some_nodup {rules : List Rule} {rule_id : String}
    {r : Rule} {rem : List Rule}
    (hnd : (rules.map Rule.identifier).Nodup)
    (h : extract_rule rules rule_id = some (r, rem)) :
    r.identifier = rule_id ∧
    rem.map Rule.identifier =
      (rules.map Rule.identifier).filter (fun x => ¬ x = rule_id) ∧
    (rem.map Rule.identifier).Nodup := by
  induction rules generalizing r rem with
  | nil => simp [extract_rule] at h
  | cons a as ih =>
    have hnd' : (a.identifier :: as.map Rule.identifier).Nodup := by simpa using hnd
    obtain ⟨ha, hasnd⟩ := List.nodup_cons.mp hnd'
    by_cases hr : a.identifier = rule_id
    · simp only [extract_rule, if_pos hr, Option.some.injEq, Prod.mk.injEq] at h
      obtain ⟨h1, h2⟩ := h
      subst h1
      subst h2
      refine ⟨hr, ?_, hasnd⟩
      have hfil : (as.map Rule.identifier).filter (fun x => decide ¬ x = rule_id)
          = as.map Rule.identifier := by
        rw [List.filter_eq_self]
        intro x hx
        have hxne : ¬ x = rule_id := by
          intro hc
          rw [hc, ← hr] at hx
          exact ha hx
        simpa using hxne
      simp only [List.map_cons, List.filter_cons]
      rw [show (decide ¬ a.identifier = rule_id) = false by simp [hr]]
      simp only [Bool.false_eq_true, if_false]
      exact hfil.symm
    · simp only [extract_rule, if_neg hr, Option.map_eq_some'] at h
      obtain ⟨⟨r', rem'⟩, hx, hmk⟩ := h
      simp only [Prod.mk.injEq] at hmk
      obtain ⟨h1, h2⟩ := hmk
      subst h1
      subst h2
      obtain ⟨hid, hids, hnd2⟩ := ih hasnd hx
      refine ⟨hid, ?_, ?_⟩
      · simp only [List.map_cons, List.filter_cons]
        rw [show (decide ¬ a.identifier = rule_id) = true by simpa using hr]
        simp only [if_true]
        rw [hids]
      · refine List.nodup_cons.mpr ⟨?_, hnd2⟩
        intro hc
        rw [hids] at hc
        exact ha (List.mem_filter.mp hc).1

theorem apply_rules_loop_fail (rule_instances : List String) :
    ∀ wf : YadageWorkflow, (wf.rules.map Rule.identifier).Nodup →
    (apply_rules_loop wf rule_instances = none ↔
      ¬(rule_instances.Nodup ∧
        ∀ rid ∈ rule_instances, rid ∈ wf.rules.map Rule.identifier)) := by
  induction rule_instances with
  | nil => intro wf _; simp [apply_rules_loop]
  | cons rid rest ih =>
    intro wf hnd
    cases hx : extract_rule wf.rules rid with
    | none =>
      have hni : rid ∉ wf.rules.map Rule.identifier := extract_rule_none.mp hx
      simp only [apply_rules_loop, hx]
      constructor
      · rintro _ ⟨_, hsub⟩
        exact hni (hsub rid (List.mem_cons_self rid rest))
      · intro _; trivial
    | some p =>
      obtain ⟨r, rem⟩ := p
      obtain ⟨hrid, hremids, hremnd⟩ := extract_rule_some_nodup hnd hx
      have hmem : rid ∈ wf.rules.map Rule.identifier := by
        by_contra hc
        rw [extract_rule_none.mpr hc] at hx
        cases hx
      simp only [apply_rules_loop, hx]
      rw [ih ⟨wf.dag ++ r.newNodes, rem, wf.applied_rules ++ [r]⟩ hremnd]
      apply not_congr
      constructor
      · rintro ⟨hn, hsub⟩
        have hridrest : rid ∉ rest := by
          intro hc
          have hm := hsub rid hc
          rw [hremids] at hm
          have := (List.mem_filter.mp hm).2
          simp at this
        refine ⟨List.nodup_cons.mpr ⟨hridrest, hn⟩, ?_⟩
        intro x hx'
        rcases List.mem_cons.mp hx' with rfl | hx''
        · exact hmem
        · have hm := hsub x hx''
          rw [hremids] at hm
          exact (List.mem_filter.mp hm).1
      · rintro ⟨hn, hsub⟩
        obtain ⟨hrniq, hrestnd⟩ := List.nodup_cons.mp hn
        refine ⟨hrestnd, ?_⟩
        intro x hx'
        rw [hremids]
        refine List.mem_filter.mpr
          ⟨hsub x (List.mem_cons_of_mem _ hx'), ?_⟩
        have : ¬ x = rid := fun hc => hrniq (hc ▸ hx')
        simpa using this

theorem apply_rules_loop_ok (rule_instances : List String) :
    ∀ wf wf' : YadageWorkflow, (wf.rules.map Rule.identifier).Nodup →
    apply_rules_loop wf rule_instances = some wf' →
    wf'.applied_rules.map Rule.identifier =
      wf.applied_rules.map Rule.identifier ++ rule_instances ∧
    wf'.rules.map Rule.identifier =
      (wf.rules.map Rule.identifier).filter (fun x => ¬ x ∈ rule_instances) := by
  induction rule_instances with
  | nil =>
    intro wf wf' _ h
    simp only [apply_rules_loop, Option.some.injEq] at h
    subst h
    constructor
    · simp
    · rw [List.filter_eq_self.mpr]
      intro x _
      simp
  | cons rid rest ih =>
    intro wf wf' hnd h
    cases hx : extract_rule wf.rules rid with
    | none => simp [apply_rules_loop, hx] at h
    | some p =>
      obtain ⟨r, rem⟩ := p
      obtain ⟨hrid, hremids, hremnd⟩ := extract_rule_some_nodup hnd hx
      simp only [apply_rules_loop, hx] at h
      obtain ⟨ha, hr⟩ := ih ⟨wf.dag ++ r.newNodes, rem, wf.applied_rules ++ [r]⟩
        wf' hremnd h
      constructor
      · rw [ha]
        simp [hrid]
      · rw [hr]
        show (rem.map Rule.identifier).filter _ = _
        rw [hremids, List.filter_filter]
        apply List.filter_congr
        intro x _
        by_cases h1 : x = rid
        · simp [h1]
        · by_cases h2 : x ∈ rest
          · simp [h1, h2]
          · simp [h1, h2]

theorem apply_rules_eq {st : EngineState} {workflow_id : String}
    {inst : WorkflowDBInstance} (rule_instances : List String)
    (h1 : db_get_workflow st workflow_id = some inst)
    (h2 : ReconcileNoop st inst.workflow_json workflow_id) :
    apply_rules st workflow_id rule_instances =
      match apply_rules_loop inst.workflow_json rule_instances with
      | none => .ok (false, st)
      | some wf' =>
        .ok (true, (db_update_workflow st workflow_id inst.name inst.state wf').2) := by
  unfold apply_rules
  rw [get_current_noop h1 h2]

/-- C2 (amended): `YADAGEEngine.apply_rules` validates each requested rule
only for membership in the current pending-rule set, one rule at a time
interleaved with application.  When the batch has a duplicate or an
identifier not in the pending set the call returns False and the repository,
ledger and persisted record are unchanged — the earlier batch rules were
applied only to the discarded in-memory copy.  When every identifier is
found, the whole batch is applied in order with NO applicability check and
persisted with the record's previous state: the applied-rules log grows by
exactly the batch and the pending set loses exactly the batch. -/
theorem C2_apply_rules_validation
    (st : EngineState) (workflow_id : String) (inst : WorkflowDBInstance)
    (rule_instances : List String)
    (h1 : db_get_workflow st workflow_id = some inst)
    (h2 : ReconcileNoop st inst.workflow_json workflow_id)
    (h3 : (inst.workflow_json.rules.map Rule.identifier).Nodup) :
    (¬(rule_instances.Nodup ∧ ∀ rid ∈ rule_instances,
        rid ∈ inst.workflow_json.rules.map Rule.identifier) →
      apply_rules st workflow_id rule_instances = .ok (false, st)) ∧
    (rule_instances.Nodup →
      (∀ rid ∈ rule_instances, rid ∈ inst.workflow_json.rules.map Rule.identifier) →
      ∃ wf', apply_rules st workflow_id rule_instances =
          .ok (true, (db_update_workflow st workflow_id inst.name inst.state wf').2) ∧
        wf'.applied_rules.map Rule.identifier =
          inst.workflow_json.applied_rules.map Rule.identifier ++ rule_instances ∧
        wf'.rules.map Rule.identifier =
          (inst.workflow_json.rules.map Rule.identifier).filter
            (fun x => ¬ x ∈ rule_instances) ∧
        db_get_workflow (db_update_workflow st workflow_id inst.name inst.state wf').2
          workflow_id = some ⟨workflow_id, inst.name, inst.state, wf'⟩) := by
  constructor
  · intro hneg
    have hloop : apply_rules_loop inst.workflow_json rule_instances = none :=
      (apply_rules_loop_fail rule_instances inst.workflow_json h3).mpr hneg
    rw [apply_rules_eq rule_instances h1 h2, hloop]
  · intro hn hsub
    cases hloop : apply_rules_loop inst.workflow_json rule_instances with
    | none =>
      exact absurd ⟨hn, hsub⟩
        ((apply_rules_loop_fail rule_instances inst.workflow_json h3).mp hloop)
    | some wf' =>
      obtain ⟨ha, hr⟩ := apply_rules_loop_ok rule_instances inst.workflow_json wf'
        h3 hloop
      refine ⟨wf', ?_, ha, hr, ?_⟩
      · rw [apply_rules_eq rule_instances h1 h2, hloop]
      · exact db_get_update_self st workflow_id inst.name inst.state wf'
          (db_get_any h1)

/-- Witness for C2 (amended): a batch naming a rule that is not pending is
rejected with the state unchanged. -/
theorem C2_apply_rules_validation_witness :
    apply_rules exStC2 "w" ["q"] = .ok (false, exStC2) :=
  (C2_apply_rules_validation exStC2 "w" exInstC2 ["q"] rfl
    (by intro tid htid; simp [list_tasks, exStC2] at htid)
    (by decide)).1 (by decide)

/-- Counterexample to C2 as stated: the batch `[r]` where the pending rule
`r` is NOT applicable on the current graph must, per the claim, fail with
the persisted record unchanged; the code instead applies the rule, persists
it, and reports success — the stored applied-rules log gains `r`. -/
theorem C2_claim_counterexample :
    exRuleC2.applicable exWfC2.dag = false ∧
    apply_rules exStC2 "w" ["r"] = .ok (true, exStC2') ∧
    exStC2.repo.map
      (fun rec => rec.workflow_json.applied_rules.map Rule.identifier) = [[]] ∧
    exStC2'.repo.map
      (fun rec => rec.workflow_json.applied_rules.map Rule.identifier) = [["r"]] :=
  ⟨rfl, rfl, rfl, rfl⟩

/-- C6 failing input: a ledger entry whose node no longer exists in the
graph.  The reconciliation pass raises `NameError` (engine.py line 463 reads
the undefined global `db`) instead of silently deleting the orphan entry:
the call aborts with the entry still in the ledger. -/
theorem C6_orphan_entry_raises :
    getNode exWfC6.dag "ghost" = none ∧
    update_workflow_state exWfC6 exInstC6 exStC6 = .error exStC6 ∧
    ("w", "ghost") ∈ exStC6.ledger :=
  ⟨rfl, rfl, by simp [exStC6]⟩

/-! ### Helper lemmas: the submittable set and the submission loop -/

theorem length_filter_mem_eq_iff {S R : List String} (hS : S.Nodup) :
    (S.filter (fun s => s ∈ R)).length = R.length ↔ R.Nodup ∧ ∀ r ∈ R, r ∈ S := by
  have hFnd : (S.filter (fun s => s ∈ R)).Nodup := hS.filter _
  have hFsubR : ∀ x ∈ S.filter (fun s => s ∈ R), x ∈ R := by
    intro x hx
    have := (List.mem_filter.mp hx).2
    simpa using this
  have hFsubS : ∀ x ∈ S.filter (fun s => s ∈ R), x ∈ S :=
    fun x hx => (List.mem_filter.mp hx).1
  constructor
  · intro hlen
    have hsubd : (S.filter (fun s => s ∈ R)) ⊆ R.dedup :=
      fun x hx => List.mem_dedup.mpr (hFsubR x hx)
    have hsp : List.Subperm (S.filter (fun s => s ∈ R)) R.dedup :=
      List.subperm_of_subset hFnd hsubd
    have h1 : (S.filter (fun s => s ∈ R)).length ≤ R.dedup.length := hsp.length_le
    have h2 : R.dedup.length ≤ R.length := (List.dedup_sublist R).length_le
    have hdl : R.dedup.length = R.length := le_antisymm h2 (hlen ▸ h1)
    have hRnd : R.Nodup :=
      List.dedup_eq_self.mp ((List.dedup_sublist R).eq_of_length hdl)
    have hsp2 : List.Subperm (S.filter (fun s => s ∈ R)) R :=
      List.subperm_of_subset hFnd hFsubR
    have hperm : List.Perm (S.filter (fun s => s ∈ R)) R :=
      hsp2.perm_of_length_le (le_of_eq hlen.symm)
    exact ⟨hRnd, fun r hr => hFsubS r (hperm.symm.subset hr)⟩
  · rintro ⟨hRnd, hRS⟩
    have hiff : ∀ a, a ∈ S.filter (fun s => s ∈ R) ↔ a ∈ R := by
      intro a
      constructor
      · exact hFsubR a
      · intro ha
        exact List.mem_filter.mpr ⟨hRS a ha, by simpa using ha⟩
    exact ((List.perm_ext_iff_of_nodup hFnd hRnd).mpr hiff).length_eq

theorem map_filter_ids (S : List Node) (R : List String) :
    (S.filter (fun n => n.identifier ∈ R)).map Node.identifier =
      (S.map Node.identifier).filter (fun s => s ∈ R) := by
  induction S with
  | nil => rfl
  | cons n ns ih =>
    by_cases h : n.identifier ∈ R
    · simp [List.filter_cons, h, ih]
    · simp [List.filter_cons, h, ih]

theorem submittable_nodes_eq (st : EngineState) (wf : YadageWorkflow)
    (workflow_id : String) (h : DagNodup wf) :
    submittable_nodes st wf workflow_id = wf.dag.filter (fun n =>
      !decide (n.identifier ∈ list_tasks st workflow_id) && !n.submit_time &&
        upstream_ok wf.dag n) := by
  have key : ∀ l : List Node, (∀ n ∈ l, getNode wf.dag n.identifier = some n) →
      (l.map Node.identifier).filterMap (fun node_id =>
        if node_id ∈ list_tasks st workflow_id then none
        else
          match getNode wf.dag node_id with
          | none => none
          | some node =>
            if node.submit_time then none
            else if upstream_ok wf.dag node then some node
            else none) =
      l.filter (fun n =>
        !decide (n.identifier ∈ list_tasks st workflow_id) && !n.submit_time &&
          upstream_ok wf.dag n) := by
    intro l
    induction l with
    | nil => intro _; rfl
    | cons n ns ih =>
      intro hl
      have hn := hl n (List.mem_cons_self n ns)
      have hns : ∀ m ∈ ns, getNode wf.dag m.identifier = some m :=
        fun m hm => hl m (List.mem_cons_of_mem n hm)
      simp only [List.map_cons, List.filterMap_cons, List.filter_cons]
      rw [ih hns]
      by_cases h1 : n.identifier ∈ list_tasks st workflow_id
      · simp [h1]
      · rw [if_neg h1, hn]
        cases hs : n.submit_time with
        | true => simp [hs]
        | false =>
          cases hu : upstream_ok wf.dag n with
          | true => simp [hs, hu, h1]
          | false => simp [hs, hu, h1]
  exact key wf.dag (fun n hn => getNode_self h hn)

theorem mem_submittable (st : EngineState) (wf : YadageWorkflow)
    (workflow_id : String) (h : DagNodup wf) (n : Node) :
    n ∈ submittable_nodes st wf workflow_id ↔
      n ∈ wf.dag ∧ ¬ n.identifier ∈ list_tasks st workflow_id ∧
        n.submit_time = false ∧ upstream_ok wf.dag n = true := by
  rw [submittable_nodes_eq st wf workflow_id h, List.mem_filter]
  simp [Bool.and_eq_true, Bool.not_eq_true']
  tauto

theorem submittable_ids_nodup (st : EngineState) (wf : YadageWorkflow)
    (workflow_id : String) (h : DagNodup wf) :
    ((submittable_nodes st wf workflow_id).map Node.identifier).Nodup := by
  rw [submittable_nodes_eq st wf workflow_id h]
  exact List.Nodup.sublist (List.Sublist.map _ (List.filter_sublist _)) h

theorem submit_loop_state (workflow_id : String) (nodes : List Node) :
    ∀ (wf : YadageWorkflow) (st : EngineState),
    (submit_loop workflow_id nodes wf st).2.ledger =
      st.ledger ++ nodes.map (fun n => (workflow_id, n.identifier)) ∧
    (submit_loop workflow_id nodes wf st).2.dispatched =
      st.dispatched ++ nodes.map (fun n => (workflow_id, n.identifier)) ∧
    (submit_loop workflow_id nodes wf st).2.repo = st.repo ∧
    (submit_loop workflow_id nodes wf st).2.writes = st.writes ∧
    (submit_loop workflow_id nodes wf st).2.dirs = st.dirs := by
  induction nodes with
  | nil => intro wf st; simp [submit_loop]
  | cons n ns ih =>
    intro wf st
    obtain ⟨h1, h2, h3, h4, h5⟩ := ih
      { wf with dag := set_submit_time wf.dag n.identifier }
      (create_task
        { st with dispatched := st.dispatched ++ [(workflow_id, n.identifier)] }
        workflow_id n.identifier)
    refine ⟨?_, ?_, h3, h4, h5⟩
    · rw [show submit_loop workflow_id (n :: ns) wf st =
        submit_loop workflow_id ns
          { wf with dag := set_submit_time wf.dag n.identifier }
          (create_task
            { st with dispatched := st.dispatched ++ [(workflow_id, n.identifier)] }
            workflow_id n.identifier) from rfl]
      rw [h1]
      simp [create_task]
    · rw [show submit_loop workflow_id (n :: ns) wf st =
        submit_loop workflow_id ns
          { wf with dag := set_submit_time wf.dag n.identifier }
          (create_task
            { st with dispatched := st.dispatched ++ [(workflow_id, n.identifier)] }
            workflow_id n.identifier) from rfl]
      rw [h2]
      simp [create_task]

theorem submit_nodes_eq {st : EngineState} {workflow_id : String}
    {inst : WorkflowDBInstance} (node_ids : List String)
    (h1 : db_get_workflow st workflow_id = some inst)
    (h2 : ReconcileNoop st inst.workflow_json workflow_id) :
    submit_nodes st workflow_id node_ids =
      if ((submittable_nodes st inst.workflow_json workflow_id).filter
          (fun node => node.identifier ∈ node_ids)).length ≠ node_ids.length
      then .ok (false, st)
      else
        .ok (true,
          (db_update_workflow
            (submit_loop workflow_id
              ((submittable_nodes st inst.workflow_json workflow_id).filter
                (fun node => node.identifier ∈ node_ids))
              inst.workflow_json st).2
            workflow_id inst.name
            (get_workflow_state
              (submit_loop workflow_id
                ((submittable_nodes st inst.workflow_json workflow_id).filter
                  (fun node => node.identifier ∈ node_ids))
                inst.workflow_json st).1)
            (submit_loop workflow_id
              ((submittable_nodes st inst.workflow_json workflow_id).filter
                (fun node => node.identifier ∈ node_ids))
              inst.workflow_json st).1).2) := by
  unfold submit_nodes
  rw [get_current_noop h1 h2]

theorem submit_nodes_core (st : EngineState) (workflow_id : String)
    (inst : WorkflowDBInstance) (node_ids : List String)
    (h1 : db_get_workflow st workflow_id = some inst)
    (h2 : ReconcileNoop st inst.workflow_json workflow_id)
    (h3 : DagNodup inst.workflow_json) :
    ((∃ st2, submit_nodes st workflow_id node_ids = .ok (true, st2)) ↔
      (node_ids.Nodup ∧ ∀ nid ∈ node_ids, nid ∈
        (submittable_nodes st inst.workflow_json workflow_id).map Node.identifier)) ∧
    (¬(node_ids.Nodup ∧ ∀ nid ∈ node_ids, nid ∈
        (submittable_nodes st inst.workflow_json workflow_id).map Node.identifier) →
      submit_nodes st workflow_id node_ids = .ok (false, st)) := by
  have hSnd : ((submittable_nodes st inst.workflow_json workflow_id).map
      Node.identifier).Nodup := submittable_ids_nodup st inst.workflow_json workflow_id h3
  have hlen : (((submittable_nodes st inst.workflow_json workflow_id).filter
        (fun node => node.identifier ∈ node_ids)).length = node_ids.length) ↔
      (node_ids.Nodup ∧ ∀ nid ∈ node_ids, nid ∈
        (submittable_nodes st inst.workflow_json workflow_id).map Node.identifier) := by
    rw [show ((submittable_nodes st inst.workflow_json workflow_id).filter
        (fun node => node.identifier ∈ node_ids)).length =
      (((submittable_nodes st inst.workflow_json workflow_id).filter
        (fun node => node.identifier ∈ node_ids)).map Node.identifier).length by
        rw [List.length_map]]
    rw [map_filter_ids]
    exact length_filter_mem_eq_iff hSnd
  constructor
  · constructor
    · rintro ⟨st2, hok⟩
      rw [submit_nodes_eq node_ids h1 h2] at hok
      by_cases hne : ((submittable_nodes st inst.workflow_json workflow_id).filter
          (fun node => node.identifier ∈ node_ids)).length ≠ node_ids.length
      · rw [if_pos hne] at hok
        simp at hok
      · rw [if_neg hne] at hok
        push_neg at hne
        exact hlen.mp hne
    · intro hcrit
      rw [submit_nodes_eq node_ids h1 h2]
      rw [if_neg (by simp [hlen.mpr hcrit])]
      exact ⟨_, rfl⟩
  · intro hneg
    rw [submit_nodes_eq node_ids h1 h2]
    rw [if_pos (fun hc => hneg (hlen.mp hc))]

/-- Witness for C3: a workflow with one tracked terminal node.  The first
reconciliation run deletes the entry and writes the SUCCESS record; the
second run returns the identical record and state (no further write:
`writes` stays 1). -/
theorem C3_reconciliation_idempotent_witness :
    update_workflow_state exWfC3 exInstC3 exStC3 = .ok (some exInstC3', exStC3') ∧
    update_workflow_state exWfC3 exInstC3' exStC3' = .ok (some exInstC3', exStC3') :=
  ⟨rfl,
   (C3_reconciliation_idempotent exWfC3 exInstC3 exInstC3' exStC3 exStC3' rfl).1⟩

/-- C4: `submit_nodes` succeeds exactly when the requested batch has no
duplicates and every identifier belongs to the submittable set — the nodes
of the DAG with no task-ledger entry, `submit_time` unset and all upstream
dependencies satisfied; on any invalid batch the call fails (returns False)
with the state — record, ledger and dispatch log — completely unchanged, so
nothing was dispatched or recorded. -/
theorem C4_submit_nodes_validation
    (st : EngineState) (workflow_id : String) (inst : WorkflowDBInstance)
    (node_ids : List String)
    (h1 : db_get_workflow st workflow_id = some inst)
    (h2 : ReconcileNoop st inst.workflow_json workflow_id)
    (h3 : DagNodup inst.workflow_json) :
    (∀ n, n ∈ submittable_nodes st inst.workflow_json workflow_id ↔
      n ∈ inst.workflow_json.dag ∧ ¬ n.identifier ∈ list_tasks st workflow_id ∧
        n.submit_time = false ∧ upstream_ok inst.workflow_json.dag n = true) ∧
    ((∃ st2, submit_nodes st workflow_id node_ids = .ok (true, st2)) ↔
      (node_ids.Nodup ∧ ∀ nid ∈ node_ids, nid ∈
        (submittable_nodes st inst.workflow_json workflow_id).map Node.identifier)) ∧
    (¬(node_ids.Nodup ∧ ∀ nid ∈ node_ids, nid ∈
        (submittable_nodes st inst.workflow_json workflow_id).map Node.identifier) →
      submit_nodes st workflow_id node_ids = .ok (false, st)) := by
  obtain ⟨hiff, hfail⟩ := submit_nodes_core st workflow_id inst node_ids h1 h2 h3
  exact ⟨mem_submittable st inst.workflow_json workflow_id h3, hiff, hfail⟩

/-- Witness for C4: requesting node `b`, whose upstream dependency `a` is
not yet successful, fails and leaves the state unchanged. -/
theorem C4_submit_nodes_validation_witness :
    submit_nodes exStC4 "w" ["b"] = .ok (false, exStC4) :=
  (C4_submit_nodes_validation exStC4 "w" exInstC4 ["b"] rfl
    (by intro tid htid; simp [list_tasks, exStC4] at htid)
    (by decide)).2.2 (by decide)

theorem countP_le_one_of_nodup {α : Type} [DecidableEq α] {l : List α}
    (h : l.Nodup) (x : α) : l.countP (fun p => p = x) ≤ 1 := by
  induction l with
  | nil => simp
  | cons a as ih =>
    obtain ⟨ha, has⟩ := List.nodup_cons.mp h
    rw [List.countP_cons]
    by_cases hx : a = x
    · subst hx
      have hz : as.countP (fun p => p = a) = 0 := by
        rw [List.countP_eq_zero]
        intro b hb
        simp only [decide_eq_true_eq]
        intro hc
        exact ha (hc ▸ hb)
      simp [hz]
    · rw [show (decide (a = x)) = false by simpa using hx]
      simpa using ih has

/-- C5: a ledger entry's presence excludes the node from the submittable
set, so a serialized later `submit_nodes` call naming an already-submitted
node is rejected with the state unchanged — no dispatch, no second ledger
entry; moreover any `submit_nodes` call preserves the at-most-one-entry-
per-node invariant of the ledger. -/
theorem C5_ledger_excludes_resubmission
    (st : EngineState) (workflow_id : String) (inst : WorkflowDBInstance)
    (h1 : db_get_workflow st workflow_id = some inst)
    (h2 : ReconcileNoop st inst.workflow_json workflow_id)
    (h3 : DagNodup inst.workflow_json) :
    (∀ (node_ids : List String) (nid : String), nid ∈ node_ids →
      nid ∈ list_tasks st workflow_id →
      submit_nodes st workflow_id node_ids = .ok (false, st)) ∧
    (∀ (node_ids : List String) (b : Bool) (st2 : EngineState),
      submit_nodes st workflow_id node_ids = .ok (b, st2) →
      ∀ nid, st.ledger.countP (fun p => p = (workflow_id, nid)) ≤ 1 →
        st2.ledger.countP (fun p => p = (workflow_id, nid)) ≤ 1) := by
  constructor
  · intro node_ids nid hreq htracked
    apply (submit_nodes_core st workflow_id inst node_ids h1 h2 h3).2
    rintro ⟨_, hsub⟩
    have hmemS := hsub nid hreq
    rcases List.mem_map.mp hmemS with ⟨n, hnS, hnid⟩
    have := ((mem_submittable st inst.workflow_json workflow_id h3 n).mp hnS).2.1
    rw [hnid] at this
    exact this htracked
  · intro node_ids b st2 hok nid hcount
    rw [submit_nodes_eq node_ids h1 h2] at hok
    by_cases hne : ((submittable_nodes st inst.workflow_json workflow_id).filter
        (fun node => node.identifier ∈ node_ids)).length ≠ node_ids.length
    · rw [if_pos hne] at hok
      simp only [Except.ok.injEq, Prod.mk.injEq] at hok
      rw [← hok.2]
      exact hcount
    · rw [if_neg hne] at hok
      simp only [Except.ok.injEq, Prod.mk.injEq] at hok
      have hst2 : st2.ledger =
          st.ledger ++ ((submittable_nodes st inst.workflow_json workflow_id).filter
            (fun node => node.identifier ∈ node_ids)).map
              (fun n => (workflow_id, n.identifier)) := by
        rw [← hok.2]
        rw [(db_update_struct _ workflow_id inst.name _ _).1]
        exact (submit_loop_state workflow_id _ inst.workflow_json st).1
      rw [hst2, List.countP_append]
      set nodes := (submittable_nodes st inst.workflow_json workflow_id).filter
        (fun node => node.identifier ∈ node_ids) with hnodes
      by_cases hmem : nid ∈ nodes.map Node.identifier
      · -- the node is freshly submitted: it was not tracked before, and the
        -- submitted batch contains it exactly once
        have hz : st.ledger.countP (fun p => p = (workflow_id, nid)) = 0 := by
          rcases List.mem_map.mp hmem with ⟨n, hnN, hnid⟩
          have hnS : n ∈ submittable_nodes st inst.workflow_json workflow_id :=
            (List.mem_filter.mp hnN).1
          have hnotr :=
            ((mem_submittable st inst.workflow_json workflow_id h3 n).mp hnS).2.1
          rw [hnid] at hnotr
          rw [List.countP_eq_zero]
          intro p hp
          simp only [decide_eq_true_eq]
          intro hc
          exact hnotr (mem_list_tasks.mpr (hc ▸ hp))
        have hone : (nodes.map (fun n => (workflow_id, n.identifier))).countP
            (fun p => p = (workflow_id, nid)) ≤ 1 := by
          have hndids : (nodes.map Node.identifier).Nodup := by
            rw [hnodes, map_filter_ids]
            exact List.Nodup.sublist (List.filter_sublist _)
              (submittable_ids_nodup st inst.workflow_json workflow_id h3)
          have hndp : (nodes.map (fun n => (workflow_id, n.identifier))).Nodup := by
            have heq : nodes.map (fun n => (workflow_id, n.identifier)) =
                (nodes.map Node.identifier).map (fun s => (workflow_id, s)) := by
              rw [List.map_map]
              rfl
            rw [heq]
            exact hndids.map (fun a b hab => by simpa using hab)
          exact countP_le_one_of_nodup hndp _
        rw [hz]
        simpa using hone
      · have hz2 : (nodes.map (fun n => (workflow_id, n.identifier))).countP
            (fun p => p = (workflow_id, nid)) = 0 := by
          rw [List.countP_eq_zero]
          intro p hp
          simp only [decide_eq_true_eq]
          intro hc
          rcases List.mem_map.mp hp with ⟨n, hnN, hpair⟩
          have hnideq : n.identifier = nid := by
            have := congrArg Prod.snd (hpair.trans hc)
            simpa using this
          exact hmem (List.mem_map.mpr ⟨n, hnN, hnideq⟩)
        rw [hz2]
        simpa using hcount

/-- Witness for C5: node `a` is already tracked by the ledger; submitting
`[a]` again is rejected with the state unchanged. -/
theorem C5_ledger_excludes_resubmission_witness :
    submit_nodes exStC5 "w" ["a"] = .ok (false, exStC5) :=
  (C5_ledger_excludes_resubmission exStC5 "w" exInstC5 rfl
    (by
      intro tid htid
      simp [list_tasks, exStC5] at htid
      subst htid
      exact ⟨⟨"a", NodeState.RUNNING, true, []⟩, rfl, by decide, by decide⟩)
    (by decide)).1 ["a"] "a" (by decide) (by decide)

/-! ### Helper lemmas: the list_workflows reconciliation scan -/

theorem update_ok_effects {wf : YadageWorkflow} {inst : WorkflowDBInstance}
    {st : EngineState} {r : Option WorkflowDBInstance} {st' : EngineState}
    (h : update_workflow_state wf inst st = .ok (r, st')) :
    (∀ wid', wid' ≠ inst.identifier →
      list_tasks st' wid' = list_tasks st wid' ∧
      db_get_workflow st' wid' = db_get_workflow st wid') ∧
    (∀ p ∈ st'.ledger, p ∈ st.ledger) := by
  unfold update_workflow_state at h
  by_cases hl : (list_tasks st inst.identifier).length > 0
  · rw [if_pos hl] at h
    cases hrec : reconcile_tasks wf.dag inst.identifier (list_tasks st inst.identifier)
        st false with
    | error e => rw [hrec] at h; simp at h
    | ok p =>
      obtain ⟨st1, ch⟩ := p
      rw [hrec] at h
      simp only at h
      obtain ⟨hrepo, _, _, _, hledger⟩ :=
        reconcile_tasks_ok_struct wf.dag inst.identifier _ _ _ _ _ hrec
      have hoth1 : ∀ wid', wid' ≠ inst.identifier →
          list_tasks st1 wid' = list_tasks st wid' :=
        fun wid' hne => reconcile_tasks_other wf.dag inst.identifier _ _ _ _ _
          hrec wid' hne
      have hget1 : ∀ wid', db_get_workflow st1 wid' = db_get_workflow st wid' := by
        intro wid'
        unfold db_get_workflow
        rw [hrepo]
      by_cases hch : ch = true
      · subst hch
        rw [if_pos rfl] at h
        simp only [Except.ok.injEq, Prod.mk.injEq] at h
        obtain ⟨_, hst'⟩ := h
        subst hst'
        constructor
        · intro wid' hne
          constructor
          · unfold list_tasks
            rw [(db_update_struct st1 inst.identifier inst.name _ _).1]
            exact hoth1 wid' hne
          · rw [db_get_update_ne st1 inst.identifier inst.name _ _ hne]
            exact hget1 wid'
        · intro p hp
          rw [(db_update_struct st1 inst.identifier inst.name _ _).1] at hp
          exact hledger hp
      · have hchf : ch = false := by
          cases ch
          · rfl
          · exact absurd rfl hch
        subst hchf
        rw [if_neg (by simp)] at h
        simp only [Except.ok.injEq, Prod.mk.injEq] at h
        obtain ⟨_, hst'⟩ := h
        subst hst'
        exact ⟨fun wid' hne => ⟨hoth1 wid' hne, hget1 wid'⟩, fun p hp => hledger hp⟩
  · rw [if_neg hl] at h
    simp only [Except.ok.injEq, Prod.mk.injEq] at h
    obtain ⟨_, hst'⟩ := h
    subst hst'
    exact ⟨fun _ _ => ⟨rfl, rfl⟩, fun p hp => hp⟩

theorem get_workflow_objects_some {st : EngineState} {workflow_id : String}
    {wf : YadageWorkflow} {inst : WorkflowDBInstance}
    (h : get_workflow_objects st workflow_id = some (wf, inst)) :
    db_get_workflow st workflow_id = some inst ∧ wf = inst.workflow_json := by
  unfold get_workflow_objects at h
  cases hg : db_get_workflow st workflow_id with
  | none => rw [hg] at h; cases h
  | some i =>
    rw [hg] at h
    simp only [Option.some.injEq, Prod.mk.injEq] at h
    obtain ⟨h1, h2⟩ := h
    subst h2
    subst h1
    exact ⟨rfl, rfl⟩

theorem reconcile_workflow_purge {st : EngineState} {workflow_id : String}
    (h : db_get_workflow st workflow_id = none) :
    reconcile_workflow st workflow_id = .ok (delete_tasks st workflow_id) := by
  unfold reconcile_workflow get_workflow_objects
  rw [h]

theorem reconcile_workflow_ok_effects {st : EngineState} {workflow_id : String}
    {st' : EngineState} (h : reconcile_workflow st workflow_id = .ok st') :
    (∀ wid', wid' ≠ workflow_id →
      list_tasks st' wid' = list_tasks st wid' ∧
      db_get_workflow st' wid' = db_get_workflow st wid') ∧
    (∀ p ∈ st'.ledger, p ∈ st.ledger) := by
  unfold reconcile_workflow at h
  cases hg : get_workflow_objects st workflow_id with
  | none =>
    rw [hg] at h
    simp only [Except.ok.injEq] at h
    subst h
    refine ⟨fun wid' hne => ⟨list_tasks_delete_tasks_ne st hne, rfl⟩,
      fun p hp => delete_tasks_subset st workflow_id hp⟩
  | some q =>
    obtain ⟨wf, inst⟩ := q
    rw [hg] at h
    simp only at h
    obtain ⟨hget, hwf⟩ := get_workflow_objects_some hg
    have hid : inst.identifier = workflow_id := (db_get_some hget).2
    cases hupd : update_workflow_state wf inst st with
    | error e => rw [hupd] at h; simp at h
    | ok p =>
      obtain ⟨r, st1⟩ := p
      rw [hupd] at h
      simp only [Except.ok.injEq] at h
      subst h
      obtain ⟨hoth, hsub⟩ := update_ok_effects hupd
      exact ⟨fun wid' hne => hoth wid' (by rw [hid]; exact hne), hsub⟩

theorem update_workflow_state_total {wf : YadageWorkflow}
    {inst : WorkflowDBInstance} {st : EngineState}
    (h : ∀ tid ∈ list_tasks st inst.identifier, ∃ n, getNode wf.dag tid = some n) :
    ∃ r st1, update_workflow_state wf inst st = .ok (r, st1) := by
  unfold update_workflow_state
  by_cases hl : (list_tasks st inst.identifier).length > 0
  · rw [if_pos hl]
    obtain ⟨st1, ch, hrec⟩ := reconcile_tasks_total wf.dag inst.identifier
      (list_tasks st inst.identifier) st false h
    rw [hrec]
    cases ch
    · exact ⟨_, _, rfl⟩
    · exact ⟨_, _, rfl⟩
  · rw [if_neg hl]
    exact ⟨_, _, rfl⟩

theorem reconcile_workflow_total {st : EngineState} {workflow_id : String}
    (h : ∀ inst, db_get_workflow st workflow_id = some inst →
      ∀ tid ∈ list_tasks st workflow_id, ∃ n, getNode inst.workflow_json.dag tid = some n) :
    ∃ st', reconcile_workflow st workflow_id = .ok st' := by
  cases hg : db_get_workflow st workflow_id with
  | none => exact ⟨_, reconcile_workflow_purge hg⟩
  | some inst =>
    have hid : inst.identifier = workflow_id := (db_get_some hg).2
    have horph : ∀ tid ∈ list_tasks st inst.identifier,
        ∃ n, getNode inst.workflow_json.dag tid = some n := by
      rw [hid]
      exact h inst hg
    obtain ⟨r, st1, hupd⟩ := update_workflow_state_total horph
    unfold reconcile_workflow get_workflow_objects
    rw [hg]
    simp only
    rw [hupd]
    exact ⟨st1, rfl⟩

theorem list_workflows_scan_ok (wids : List String) : ∀ st : EngineState,
    wids.Nodup →
    (∀ wid ∈ wids, ∀ inst, db_get_workflow st wid = some inst →
      ∀ tid ∈ list_tasks st wid, ∃ n, getNode inst.workflow_json.dag tid = some n) →
    ∃ st', list_workflows_scan wids st = .ok st' ∧
      (∀ p ∈ st'.ledger, p ∈ st.ledger) ∧
      (∀ wid ∈ wids, db_get_workflow st wid = none →
        ∀ nid, (wid, nid) ∉ st'.ledger) ∧
      (∀ wid', wid' ∉ wids → db_get_workflow st' wid' = db_get_workflow st wid') := by
  induction wids with
  | nil =>
    intro st _ _
    exact ⟨st, rfl, fun p hp => hp, by simp, fun _ _ => rfl⟩
  | cons w ws ih =>
    intro st hnd hrec
    obtain ⟨hw, hwsnd⟩ := List.nodup_cons.mp hnd
    obtain ⟨st1, hstep⟩ := reconcile_workflow_total
      (fun inst hinst => hrec w (List.mem_cons_self w ws) inst hinst)
    obtain ⟨hoth, hsub⟩ := reconcile_workflow_ok_effects hstep
    have hrec1 : ∀ wid ∈ ws, ∀ inst, db_get_workflow st1 wid = some inst →
        ∀ tid ∈ list_tasks st1 wid, ∃ n, getNode inst.workflow_json.dag tid = some n := by
      intro wid hwid inst hinst tid htid
      have hne : wid ≠ w := fun hc => hw (hc ▸ hwid)
      obtain ⟨htasks, hget⟩ := hoth wid hne
      rw [hget] at hinst
      rw [htasks] at htid
      exact hrec wid (List.mem_cons_of_mem w hwid) inst hinst tid htid
    obtain ⟨st', hscan, hsub', hpurge', hun'⟩ := ih st1 hwsnd hrec1
    refine ⟨st', ?_, ?_, ?_, ?_⟩
    · simp only [list_workflows_scan]
      rw [hstep]
      exact hscan
    · exact fun p hp => hsub p (hsub' p hp)
    · intro wid hwid hnone nid
      rcases List.mem_cons.mp hwid with rfl | hwid'
      · have hstep' : reconcile_workflow st wid = .ok (delete_tasks st wid) :=
          reconcile_workflow_purge hnone
        rw [hstep] at hstep'
        have hst1 : st1 = delete_tasks st wid := (Except.ok.inj hstep'.symm).symm
        intro hc
        have hc1 : (wid, nid) ∈ st1.ledger := hsub' _ hc
        rw [hst1] at hc1
        exact delete_tasks_not_mem st wid (wid, nid) rfl hc1
      · have hne : wid ≠ w := fun hc => hw (hc ▸ hwid')
        have hget := (hoth wid hne).2
        exact hpurge' wid hwid' (by rw [hget]; exact hnone) nid
    · intro wid' hw'
      have h1 : wid' ∉ ws := fun hc => hw' (List.mem_cons_of_mem w hc)
      have h2 : wid' ≠ w := fun hc => hw' (hc ▸ List.mem_cons_self w ws)
      rw [hun' wid' h1, (hoth wid' h2).2]

/-- C7 (amended): `list_workflows` reconciles exactly the workflows in the
ledger's distinct-workflow index and, provided no reconciled workflow holds
an orphan ledger entry, returns the full repository listing of the final
state; the ledger entries of every indexed workflow whose record cannot be
loaded are purged (and this purge does not abort the scan), records of
workflows outside the index are untouched, and the scan never adds ledger
entries.  (An error while reconciling one workflow — such as the orphan
`NameError` — aborts the whole scan; see the counterexample.) -/
theorem C7_list_workflows_reconciliation (st : EngineState)
    (H : ∀ wid ∈ tm_list_workflows st, ∀ inst, db_get_workflow st wid = some inst →
      ∀ tid ∈ list_tasks st wid, ∃ n, getNode inst.workflow_json.dag tid = some n) :
    ∃ st', list_workflows st = .ok (db_list_workflows st', st') ∧
      (∀ wid ∈ tm_list_workflows st, db_get_workflow st wid = none →
        ∀ nid, (wid, nid) ∉ st'.ledger) ∧
      (∀ wid', wid' ∉ tm_list_workflows st →
        db_get_workflow st' wid' = db_get_workflow st wid') ∧
      (∀ p ∈ st'.ledger, p ∈ st.ledger) := by
  obtain ⟨st', hscan, hsub, hpurge, hun⟩ :=
    list_workflows_scan_ok (tm_list_workflows st) st (List.nodup_dedup _) H
  refine ⟨st', ?_, hpurge, hun, hsub⟩
  unfold list_workflows
  rw [hscan]

/-- Witness for C7 (amended): `w1` (record present, live tracked node)
reconciles, `w2` (record gone) has its ledger entry purged, and the listing
of the final state is returned. -/
theorem C7_list_workflows_reconciliation_witness :
    ∃ st', list_workflows exStC7w = .ok (db_list_workflows st', st') ∧
      (∀ wid ∈ tm_list_workflows exStC7w, db_get_workflow exStC7w wid = none →
        ∀ nid, (wid, nid) ∉ st'.ledger) ∧
      (∀ wid', wid' ∉ tm_list_workflows exStC7w →
        db_get_workflow st' wid' = db_get_workflow exStC7w wid') ∧
      (∀ p ∈ st'.ledger, p ∈ exStC7w.ledger) :=
  C7_list_workflows_reconciliation exStC7w (by
    intro wid hwid inst hinst tid htid
    have hidx : tm_list_workflows exStC7w = ["w1", "w2"] := rfl
    rw [hidx] at hwid
    rcases List.mem_cons.mp hwid with rfl | hwid'
    · have hg : db_get_workflow exStC7w "w1" = some exInst7c := rfl
      rw [hg] at hinst
      have hinst' : exInst7c = inst := Option.some.inj hinst
      subst hinst'
      have hts : list_tasks exStC7w "w1" = ["a"] := rfl
      rw [hts] at htid
      simp only [List.mem_singleton] at htid
      subst htid
      exact ⟨⟨"a", NodeState.RUNNING, true, []⟩, rfl⟩
    · rcases List.mem_cons.mp hwid' with rfl | hw2
      · have hg : db_get_workflow exStC7w "w2" = none := rfl
        rw [hg] at hinst
        cases hinst
      · simp at hw2)

/-- Counterexample to C7 as stated: with `w1` holding an orphan ledger entry
ahead of the healthy `w2` in the ledger index, the scan raises (the orphan
`NameError` of engine.py line 463) and aborts the whole call: no listing is
returned, `w2` is never reconciled (its terminal tracked entry survives and
its record still says RUNNING), and `w1`'s entries are not purged — the
claim demanded that one workflow's failure not prevent reconciling the
others. -/
theorem C7_claim_counterexample :
    list_workflows exStC7 = .error exStC7 ∧
    ("w2", "b") ∈ exStC7.ledger ∧
    ("w1", "ghost") ∈ exStC7.ledger ∧
    getNode exWf7b.dag "b" = some ⟨"b", NodeState.SUCCESS, true, []⟩ ∧
    db_get_workflow exStC7 "w2" = some exInst7b :=
  ⟨rfl, by simp [exStC7], by simp [exStC7], rfl, rfl⟩

/-- C8: given a fresh identifier (the model of `str(uuid.uuid4())`) and a
not-yet-existing work directory, `create_workflow` creates the isolated work
directory named by the identifier under the engine's base directory,
instantiates the graph from the template and the init parameters with the
root context scoped to that directory, and persists a new record carrying
the identifier, the given name and the baseline status WAITING; the ledger
and dispatch log are untouched. -/
theorem C8_create_workflow (st : EngineState) (work_dir : String)
    (workflow_def : WorkflowDef) (name : String)
    (init_data : List (String × String)) (identifier : String)
    (hfresh : ∀ r ∈ st.repo, r.identifier ≠ identifier)
    (hdir : os_path_join work_dir identifier ∉ st.dirs) :
    ∃ inst st', create_workflow st work_dir workflow_def name init_data identifier =
        .ok (inst, st') ∧
      inst.identifier = identifier ∧ inst.name = name ∧
      inst.state = WorkflowState.WAITING ∧
      inst.workflow_json = workflow_def.view_init
        (workflow_def.createFromJSON ⟨[os_path_join work_dir identifier], []⟩)
        init_data ∧
      st'.repo = st.repo ++ [inst] ∧
      st'.dirs = st.dirs ++ [os_path_join work_dir identifier] ∧
      st'.ledger = st.ledger ∧ st'.dispatched = st.dispatched := by
  have hmk : os_makedirs st (os_path_join work_dir identifier) =
      .ok { st with dirs := st.dirs ++ [os_path_join work_dir identifier] } := by
    unfold os_makedirs
    rw [if_neg hdir]
  have hany : ¬ (({ st with
        dirs := st.dirs ++ [os_path_join work_dir identifier] } : EngineState).repo.any
      (fun r => r.identifier = identifier) = true) := by
    simp only [List.any_eq_true, not_exists]
    intro r
    rintro ⟨hr, hid⟩
    exact hfresh r hr (by simpa using hid)
  simp only [create_workflow]
  rw [hmk]
  simp only [db_create_workflow]
  rw [if_neg hany]
  exact ⟨_, _, rfl, rfl, rfl, rfl, rfl, rfl, rfl, rfl, rfl⟩

/-- Witness for C8: creating a workflow from a template in an empty engine
state with identifier `id1`. -/
theorem C8_create_workflow_witness :
    ∃ inst st', create_workflow exStC8 "/work" exDefC8 "T" [] "id1" =
        .ok (inst, st') ∧
      inst.identifier = "id1" ∧ inst.name = "T" ∧
      inst.state = WorkflowState.WAITING ∧
      inst.workflow_json = exDefC8.view_init
        (exDefC8.createFromJSON ⟨[os_path_join "/work" "id1"], []⟩) [] ∧
      st'.repo = exStC8.repo ++ [inst] ∧
      st'.dirs = exStC8.dirs ++ [os_path_join "/work" "id1"] ∧
      st'.ledger = exStC8.ledger ∧ st'.dispatched = exStC8.dispatched :=
  C8_create_workflow exStC8 "/work" exDefC8 "T" [] "id1"
    (by intro r hr; simp [exStC8] at hr) (by simp [exStC8])

/-- C10: repository serialization round-trips.  A record written through
`get_json_from_instance` (which stores `state.name`) is read back through
`get_instance_from_json` (which evaluates `WORKFLOW_STATES[obj.state]`) as a
`WorkflowDBInstance` with the identifier, name, state and workflow JSON that
were stored. -/
theorem C10_serialization_roundtrip (identifier name : String)
    (state : WorkflowState) (workflow_json : YadageWorkflow) :
    get_instance_from_json (get_json_from_instance identifier name state workflow_json)
      = some ⟨identifier, name, state, workflow_json⟩ := by
  cases state <;> rfl

end YadageEngine
